import Mathlib

/-!
Bitboard chess board (src/main.cpp)

A shallow embedding of class `Board` of `src/main.cpp`.

* A `uint64_t` mask is a `Nat`; the only operation that could leave the 64-bit range,
  `~x`, is written `2 ^ 64 - 1 - x`.
  Where a property needs the masks to be 64-bit values it assumes `Board.U64`.
* One pass of the loop of `Game::start` is `Game.startStep`, from the line read on.
* An `int` is an `Int`, a `char` is a `Char`, and a `std::string` is a `String` read through
  its list of characters, one `Char` for each `char`; `tolower`, `isupper` and `islower` are
  those of the "C" locale, `Char.toLower`, `Char.isUpper` and `Char.isLower`.
* `1ULL << square` is undefined outside `0..63`, so `pos` returns an `Option` and every
  function that calls `pos` is in the `Option` monad: `none` stands for undefined behaviour.
* `pieceBitboards` is a `std::unordered_map<char, uint64_t*>`. Its iteration order is
  implementation defined, so the board carries the map as a list of `(label, pointer)`
  entries that is some permutation of the twelve entries the constructor inserts; a pointer
  to a mask member is a `Slot`.
* Text written to `std::cout` by `processMove` is returned as the `out` component.
-/

namespace Chess

/-- A pointer to one of the twelve `uint64_t` members of `Board` (`&wKing`, ...). -/
inductive Slot where
  | wKing | wQueen | wRook | wBishop | wKnight | wPawn
  | bKing | bQueen | bRook | bBishop | bKnight | bPawn
  deriving DecidableEq, Repr, Fintype

/-- The twelve entries the constructor stores in `pieceBitboards`, in initializer order. -/
def mapEntries : List (Char × Slot) :=
  [('K', .wKing), ('Q', .wQueen), ('R', .wRook), ('B', .wBishop), ('N', .wKnight),
   ('P', .wPawn),
   ('k', .bKing), ('q', .bQueen), ('r', .bRook), ('b', .bBishop), ('n', .bKnight),
   ('p', .bPawn)]

/-- The content of a `pieceBitboards` map in the order a range-for visits it: any
permutation of the twelve entries. -/
abbrev PieceMap := { l : List (Char × Slot) // l.Perm mapEntries }

/-- The map visited in initializer order. -/
def PieceMap.std : PieceMap := ⟨mapEntries, List.Perm.refl _⟩

/-- The data members of `class Board`. -/
structure Board where
  wKing : Nat
  wQueen : Nat
  wRook : Nat
  wBishop : Nat
  wKnight : Nat
  wPawn : Nat
  bKing : Nat
  bQueen : Nat
  bRook : Nat
  bBishop : Nat
  bKnight : Nat
  bPawn : Nat
  pieceBitboards : PieceMap
  deriving DecidableEq

/-- Read through a mask pointer: `*ptr`. -/
def Board.get (b : Board) : Slot → Nat
  | .wKing => b.wKing
  | .wQueen => b.wQueen
  | .wRook => b.wRook
  | .wBishop => b.wBishop
  | .wKnight => b.wKnight
  | .wPawn => b.wPawn
  | .bKing => b.bKing
  | .bQueen => b.bQueen
  | .bRook => b.bRook
  | .bBishop => b.bBishop
  | .bKnight => b.bKnight
  | .bPawn => b.bPawn

/-- Write through a mask pointer: `*ptr = v`. -/
def Board.set (b : Board) (s : Slot) (v : Nat) : Board :=
  match s with
  | .wKing => { b with wKing := v }
  | .wQueen => { b with wQueen := v }
  | .wRook => { b with wRook := v }
  | .wBishop => { b with wBishop := v }
  | .wKnight => { b with wKnight := v }
  | .wPawn => { b with wPawn := v }
  | .bKing => { b with bKing := v }
  | .bQueen => { b with bQueen := v }
  | .bRook => { b with bRook := v }
  | .bBishop => { b with bBishop := v }
  | .bKnight => { b with bKnight := v }
  | .bPawn => { b with bPawn := v }

/-- `pos(square)`: `1ULL << square`, defined only for a shift amount in `0..63`. -/
def pos (square : Int) : Option Nat :=
  if 0 ≤ square ∧ square < 64 then some (1 <<< square.toNat) else none

/-- `Board::notationToIndex`. -/
def notationToIndex (square : String) : Int :=
  if square.length ≠ 2 then -1
  else
    let file : Char := (square.toList.getD 0 default).toLower
    let rank : Char := square.toList.getD 1 default
    if file < 'a' ∨ file > 'h' then -1
    else if rank < '1' ∨ rank > '8' then -1
    else
      let fileIndex : Int := (file.toNat : Int) - ('a'.toNat : Int)
      let rankIndex : Int := (rank.toNat : Int) - ('1'.toNat : Int)
      rankIndex * 8 + fileIndex

/-- `Board::Board`: the initial masks; `m` is the iteration order the map ends up with. -/
def Board.init (m : PieceMap) : Board where
  wKing := 1 <<< 4
  wQueen := 1 <<< 3
  wRook := 1 <<< 0 ||| 1 <<< 7
  wBishop := 1 <<< 2 ||| 1 <<< 5
  wKnight := 1 <<< 1 ||| 1 <<< 6
  wPawn := 0xFF00
  bKing := 1 <<< 60
  bQueen := 1 <<< 59
  bRook := 1 <<< 56 ||| 1 <<< 63
  bBishop := 1 <<< 58 ||| 1 <<< 61
  bKnight := 1 <<< 57 ||| 1 <<< 62
  bPawn := 0xFF000000000000
  pieceBitboards := m

/-- `Board::getAllFullSquares`: the union of the masks, accumulated in map order. -/
def getAllFullSquares (b : Board) : Nat :=
  b.pieceBitboards.val.foldl (fun result it => result ||| b.get it.2) 0

/-- `Board::isSquareFull`. -/
def isSquareFull (b : Board) (square : Int) : Option Bool := do
  let p ← pos square
  pure (decide (getAllFullSquares b &&& p ≠ 0))

/-- The range-for of `Board::getPieceAt` over the remaining map entries. -/
def getPieceAtLoop (b : Board) (square : Int) : List (Char × Slot) → Option Char
  | [] => some '-'
  | it :: rest => do
    let p ← pos square
    if b.get it.2 &&& p ≠ 0 then pure it.1 else getPieceAtLoop b square rest

/-- `Board::getPieceAt`. -/
def getPieceAt (b : Board) (square : Int) : Option Char :=
  getPieceAtLoop b square b.pieceBitboards.val

/-- `Board::clearSquare`. -/
def clearSquare (b : Board) (square : Int) : Option Board := do
  let p ← pos square
  let mask : Nat := 2 ^ 64 - 1 - p
  pure (b.pieceBitboards.val.foldl (fun acc it => acc.set it.2 (acc.get it.2 &&& mask)) b)

/-- `Board::setSquare`. -/
def setSquare (b : Board) (square : Int) (piece : Char) : Option Board := do
  let b1 ← clearSquare b square
  match b1.pieceBitboards.val.lookup piece with
  | some ptr => do
    let p ← pos square
    pure (b1.set ptr (b1.get ptr ||| p))
  | none => pure b1

/-- `Board::movePiece`. -/
def movePiece (b : Board) (fromSq toSq : Int) : Option Board := do
  let piece ← getPieceAt b fromSq
  if piece ≠ '-' then do
    let b1 ← clearSquare b fromSq
    setSquare b1 toSq piece
  else pure b

/-- What a call of `processMove` leaves behind: the returned flag, the board afterwards and
the text written to `std::cout`. -/
structure MoveResult where
  ok : Bool
  board : Board
  out : String
  deriving DecidableEq

/-- `Board::processMove`. -/
def processMove (b : Board) (fromSq toSq : String) (isWhitePlaying : Bool) : Option MoveResult :=
  let fromIndex := notationToIndex fromSq
  let toIndex := notationToIndex toSq
  if fromIndex = -1 ∨ toIndex = -1 then
    some ⟨false, b, "Invalid square notation.\n"⟩
  else do
    let full ← isSquareFull b fromIndex
    if !full then
      pure ⟨false, b, "No piece at " ++ fromSq ++ ".\n"⟩
    else do
      let piece ← getPieceAt b fromIndex
      if isWhitePlaying && !piece.isUpper then
        pure ⟨false, b, "It\x27s White\x27s turn. Move a white piece.\n"⟩
      else if !isWhitePlaying && !piece.isLower then
        pure ⟨false, b, "It\x27s Black\x27s turn. Move a black piece.\n"⟩
      else do
        let b1 ← movePiece b fromIndex toIndex
        pure ⟨true, b1, ""⟩

/-! ## Notions used to state the properties -/

/-- No two of the twelve masks share a set bit. -/
def Board.Disjoint (b : Board) : Prop :=
  ∀ s t : Slot, s ≠ t → b.get s &&& b.get t = 0

instance (b : Board) : Decidable b.Disjoint := by
  unfold Board.Disjoint
  infer_instance

/-- A square index in `0..63`. -/
def inRange (square : Int) : Prop := 0 ≤ square ∧ square ≤ 63

instance (square : Int) : Decidable (inRange square) := by
  unfold inRange
  infer_instance

/-- The label of the first entry, in list order, whose slot satisfies `f`; `'-'` if there is
none. This is what the loop of `getPieceAt` computes once `pos(square)` is known. -/
def firstLabel (f : Slot → Bool) : List (Char × Slot) → Char
  | [] => '-'
  | it :: rest => if f it.2 then it.1 else firstLabel f rest

/-- The label the constructor associates with a mask. -/
def Slot.label : Slot → Char
  | .wKing => 'K'
  | .wQueen => 'Q'
  | .wRook => 'R'
  | .wBishop => 'B'
  | .wKnight => 'N'
  | .wPawn => 'P'
  | .bKing => 'k'
  | .bQueen => 'q'
  | .bRook => 'r'
  | .bBishop => 'b'
  | .bKnight => 'n'
  | .bPawn => 'p'

/-- One call of a mutating operation of the board. -/
inductive Op where
  | setSquare (i : Int) (c : Char)
  | clearSquare (i : Int)
  | movePiece (i j : Int)
  deriving DecidableEq, Repr

/-- Every square index of the call is in `0..63`. -/
def Op.InRange : Op → Prop
  | .setSquare i _ => inRange i
  | .clearSquare i => inRange i
  | .movePiece i j => inRange i ∧ inRange j

instance (op : Op) : Decidable op.InRange := by
  cases op <;> unfold Op.InRange <;> infer_instance

/-- Perform one call on a board. -/
def Op.apply (b : Board) : Op → Option Board
  | .setSquare i c => Chess.setSquare b i c
  | .clearSquare i => Chess.clearSquare b i
  | .movePiece i j => Chess.movePiece b i j

/-- Perform a finite sequence of calls, first to last. -/
def applyOps (b : Board) : List Op → Option Board
  | [] => some b
  | op :: rest => (op.apply b).bind (fun b1 => applyOps b1 rest)

/-- The algebraic name of a square index, as in the table at the top of `main.cpp`: the
file letter `'a' + index mod 8` followed by the rank digit `'1' + index div 8`. -/
def squareName (index : Nat) : String :=
  String.mk [Char.ofNat ('a'.toNat + index % 8), Char.ofNat ('1'.toNat + index / 8)]

/-- The lowercased first character of a string, as `notationToIndex` reads it. -/
def fileOf (square : String) : Char := (square.toList.getD 0 default).toLower

/-- The second character of a string, as `notationToIndex` reads it. -/
def rankOf (square : String) : Char := square.toList.getD 1 default

/-- One of the 64 strings "a1".."h8": a lowercase file letter `a`-`h` followed by a rank
digit `1`-`8`. -/
def isSquareName (s : String) : Bool :=
  match s.toList with
  | [f, r] => decide (('a' ≤ f ∧ f ≤ 'h') ∧ '1' ≤ r ∧ r ≤ '8')
  | _ => false

/-- A file letter `a`-`h` in either case followed by a rank digit `1`-`8`. -/
def isAcceptedName (s : String) : Bool :=
  match s.toList with
  | [f, r] => decide ((('a' ≤ f ∧ f ≤ 'h') ∨ ('A' ≤ f ∧ f ≤ 'H')) ∧ '1' ≤ r ∧ r ≤ '8')
  | _ => false

/-- Every mask is a 64-bit value, as every `uint64_t` is. -/
def Board.U64 (b : Board) : Prop := ∀ s : Slot, b.get s < 2 ^ 64

instance (b : Board) : Decidable b.U64 := by
  unfold Board.U64
  infer_instance

/-- The number of set bits among the 64 bits of a mask. -/
def popcount (m : Nat) : Nat := ((List.range 64).map (fun j => (m.testBit j).toNat)).sum

/-- The state the loop of `Game::start` carries from one iteration to the next: the board
behind `m_Board` and the static flag `isWhitePlaying`. -/
structure Game where
  m_Board : Board
  isWhitePlaying : Bool
  deriving DecidableEq

/-- The scan of `std::unique` with the predicate `a == ' ' && b == ' '` once a first
character has been kept: `last` is the last character kept so far. -/
def uniqueSpacesFrom (last : Char) : List Char → List Char
  | [] => []
  | x :: xs =>
    if last = ' ' ∧ x = ' ' then uniqueSpacesFrom last xs else x :: uniqueSpacesFrom x xs

/-- The erase/`std::unique` statement of `Game::start` ("Remove extra spaces"). -/
def uniqueSpaces : List Char → List Char
  | [] => []
  | a :: rest => a :: uniqueSpacesFrom a rest

/-- `input.find(' ')`: the position of the first space, `none` for `std::string::npos`. -/
def findSpace : List Char → Option Nat
  | [] => none
  | x :: xs => if x = ' ' then some 0 else (findSpace xs).map (· + 1)

/-- One pass through the body of the loop of `Game::start`, from the line read by
`std::getline` on: the state afterwards and the text written to `std::cout` after the read.
The board drawing and the prompt written before the read change no state and are left out.
`input.length() - 1` is evaluated only when a space was found, so the input is not empty and
the unsigned subtraction does not wrap. -/
def Game.startStep (g : Game) (line : String) : Option (Game × String) :=
  let input := uniqueSpaces line.toList
  match findSpace input with
  | some spacePos =>
    if spacePos > 0 ∧ spacePos < input.length - 1 then
      let fromSq := String.mk (input.take spacePos)
      let toSq := String.mk (input.drop (spacePos + 1))
      (processMove g.m_Board fromSq toSq g.isWhitePlaying).bind fun r =>
        some (⟨r.board, if r.ok then !g.isWhitePlaying else g.isWhitePlaying⟩, r.out)
    else
      some (g, "Invalid input format. Please use format like \x27e2 e4\x27.\n")
  | none => some (g, "Invalid input format. Please use format like \x27e2 e4\x27.\n")

/-- Collapse each run of consecutive spaces to one space, written from the description of
the input normalisation rather than from the code: a space followed by a space is
dropped. -/
def collapseSpaceRuns : List Char → List Char
  | [] => []
  | [x] => [x]
  | x :: y :: rest =>
    if x = ' ' ∧ y = ' ' then collapseSpaceRuns (y :: rest)
    else x :: collapseSpaceRuns (y :: rest)

end Chess

namespace Chess

/-! ## Masks and bits -/

theorem pos_eq {square : Int} (h : inRange square) : pos square = some (2 ^ square.toNat) := by
  have h1 : 0 ≤ square ∧ square < 64 := ⟨h.1, by have := h.2; omega⟩
  simp [pos, h1, Nat.one_shiftLeft]

theorem toNat_lt {square : Int} (h : inRange square) : square.toNat < 64 := by
  have h0 := h.1
  have h1 := h.2
  omega

theorem toNat_inj {a b : Int} (ha : inRange a) (hb : inRange b) (h : a.toNat = b.toNat) :
    a = b := by
  have h0 := ha.1
  have h1 := hb.1
  omega

theorem and_two_pow_ne_zero (m i : Nat) : m &&& 2 ^ i ≠ 0 ↔ m.testBit i = true := by
  constructor
  · intro h
    by_contra hb
    apply h
    apply Nat.eq_of_testBit_eq
    intro j
    simp only [Nat.testBit_and, Nat.testBit_two_pow, Nat.zero_testBit]
    by_cases hij : i = j
    · subst hij
      simp [hb]
    · simp [hij]
  · intro hb h
    have := congrArg (fun x => x.testBit i) h
    simp [Nat.testBit_two_pow, hb] at this

theorem testBit_not_pos {i : Nat} (hi : i < 64) (j : Nat) :
    (2 ^ 64 - 1 - 2 ^ i).testBit j = (decide (j < 64) && !decide (i = j)) := by
  have hlt : 2 ^ i < 2 ^ 64 := Nat.pow_lt_pow_right (by decide) hi
  have h := Nat.testBit_two_pow_sub_succ hlt j
  rw [Nat.testBit_two_pow] at h
  have e : 2 ^ 64 - 1 - 2 ^ i = 2 ^ 64 - (2 ^ i + 1) := by omega
  rw [e]
  exact h

theorem get_set (b : Board) (s : Slot) (v : Nat) (t : Slot) :
    (b.set s v).get t = if t = s then v else b.get t := by
  cases s <;> cases t <;> rfl

theorem pieceBitboards_set (b : Board) (s : Slot) (v : Nat) :
    (b.set s v).pieceBitboards = b.pieceBitboards := by
  cases s <;> rfl

theorem board_ext {b c : Board} (hm : b.pieceBitboards = c.pieceBitboards)
    (h : ∀ s, b.get s = c.get s) : b = c := by
  cases b
  cases c
  have h1 := h .wKing
  have h2 := h .wQueen
  have h3 := h .wRook
  have h4 := h .wBishop
  have h5 := h .wKnight
  have h6 := h .wPawn
  have h7 := h .bKing
  have h8 := h .bQueen
  have h9 := h .bRook
  have h10 := h .bBishop
  have h11 := h .bKnight
  have h12 := h .bPawn
  simp only [Board.get] at h1 h2 h3 h4 h5 h6 h7 h8 h9 h10 h11 h12
  simp only at hm
  subst hm h1 h2 h3 h4 h5 h6 h7 h8 h9 h10 h11 h12
  rfl

/-! ## The map -/

theorem mem_mapEntries (c : Char) (s : Slot) : (c, s) ∈ mapEntries ↔ c = s.label := by
  cases s <;> simp [mapEntries, Slot.label]

theorem mem_map (m : PieceMap) (c : Char) (s : Slot) : (c, s) ∈ m.val ↔ c = s.label := by
  rw [m.property.mem_iff, mem_mapEntries]

theorem slot_mem_map (m : PieceMap) (s : Slot) : s ∈ m.val.map Prod.snd := by
  rw [List.mem_map]
  exact ⟨(s.label, s), (mem_map m _ _).2 rfl, rfl⟩

theorem label_injective : Function.Injective Slot.label := by
  intro s t h
  cases s <;> cases t <;> first | rfl | (exact absurd h (by decide))

theorem label_ne_dash (s : Slot) : s.label ≠ '-' := by
  cases s <;> decide

theorem lookup_eq_none_of {l : List (Char × Slot)} {c : Char} (h : ∀ s, (c, s) ∉ l) :
    l.lookup c = none := by
  induction l with
  | nil => rfl
  | cons it rest ih =>
    obtain ⟨k, v⟩ := it
    have hk : c ≠ k := by
      intro e
      subst e
      exact h v (List.mem_cons_self _ _)
    have hr : ∀ s, (c, s) ∉ rest := fun s hs => h s (List.mem_cons_of_mem _ hs)
    have hb : (c == k) = false := beq_false_of_ne hk
    simp [List.lookup, hb, ih hr]

theorem mem_of_lookup_eq_some {l : List (Char × Slot)} {c : Char} {s : Slot}
    (h : l.lookup c = some s) : (c, s) ∈ l := by
  induction l with
  | nil => simp [List.lookup] at h
  | cons it rest ih =>
    obtain ⟨k, v⟩ := it
    by_cases hk : c = k
    · subst hk
      simp [List.lookup] at h
      subst h
      exact List.mem_cons_self _ _
    · have hb : (c == k) = false := beq_false_of_ne hk
      simp [List.lookup, hb] at h
      exact List.mem_cons_of_mem _ (ih h)

theorem lookup_ne_none_of_mem {l : List (Char × Slot)} {c : Char} {s : Slot}
    (h : (c, s) ∈ l) : l.lookup c ≠ none := by
  induction l with
  | nil => simp at h
  | cons it rest ih =>
    obtain ⟨k, v⟩ := it
    by_cases hk : c = k
    · subst hk
      simp [List.lookup]
    · have hr : (c, s) ∈ rest := by
        rcases List.mem_cons.1 h with e | e
        · exact absurd (congrArg Prod.fst e) hk
        · exact e
      have hb : (c == k) = false := beq_false_of_ne hk
      simpa [List.lookup, hb] using ih hr

/-- Looking a piece label up in the map finds its mask, whatever the iteration order. -/
theorem lookup_label (m : PieceMap) (s : Slot) : m.val.lookup s.label = some s := by
  cases h : m.val.lookup s.label with
  | none => exact absurd h (lookup_ne_none_of_mem ((mem_map m _ _).2 rfl))
  | some t =>
    have ht := (mem_map m _ _).1 (mem_of_lookup_eq_some h)
    rw [label_injective ht]

/-- A character that is no piece label is not a key of the map. -/
theorem lookup_not_label (m : PieceMap) (c : Char) (h : ∀ s : Slot, c ≠ s.label) :
    m.val.lookup c = none :=
  lookup_eq_none_of (fun s hs => h s ((mem_map m _ _).1 hs))

/-! ## The loops -/

theorem foldl_and_get (mask : Nat) (l : List (Char × Slot)) (b : Board) (t : Slot) :
    (l.foldl (fun acc it => acc.set it.2 (acc.get it.2 &&& mask)) b).get t =
      if t ∈ l.map Prod.snd then b.get t &&& mask else b.get t := by
  induction l generalizing b with
  | nil => simp
  | cons it rest ih =>
    rw [List.foldl_cons, ih]
    simp only [get_set, List.map_cons, List.mem_cons]
    by_cases h1 : t = it.2
    · subst h1
      by_cases h2 : it.2 ∈ rest.map Prod.snd
      · simp [h2, Nat.and_assoc]
      · simp [h2]
    · by_cases h2 : t ∈ rest.map Prod.snd
      · simp [h1, h2]
      · simp [h1, h2]

theorem foldl_and_map (mask : Nat) (l : List (Char × Slot)) (b : Board) :
    (l.foldl (fun acc it => acc.set it.2 (acc.get it.2 &&& mask)) b).pieceBitboards =
      b.pieceBitboards := by
  induction l generalizing b with
  | nil => rfl
  | cons it rest ih => rw [List.foldl_cons, ih, pieceBitboards_set]

theorem foldl_or_testBit (b : Board) (l : List (Char × Slot)) (r j : Nat) :
    (l.foldl (fun result it => result ||| b.get it.2) r).testBit j =
      (r.testBit j || l.any (fun it => (b.get it.2).testBit j)) := by
  induction l generalizing r with
  | nil => simp
  | cons it rest ih =>
    rw [List.foldl_cons, ih]
    simp [Nat.testBit_or, Bool.or_assoc]

/-- Bit `j` of the union is set exactly when some mask has it. -/
theorem testBit_getAllFullSquares (b : Board) (j : Nat) :
    (getAllFullSquares b).testBit j = true ↔ ∃ s, (b.get s).testBit j = true := by
  unfold getAllFullSquares
  rw [foldl_or_testBit]
  simp only [Nat.zero_testBit, Bool.false_or, List.any_eq_true]
  constructor
  · rintro ⟨it, _, h⟩
    exact ⟨it.2, h⟩
  · rintro ⟨s, h⟩
    exact ⟨(s.label, s), (mem_map _ _ _).2 rfl, h⟩

theorem getPieceAtLoop_eq (b : Board) {square : Int} (h : inRange square)
    (l : List (Char × Slot)) :
    getPieceAtLoop b square l =
      some (firstLabel (fun s => (b.get s).testBit square.toNat) l) := by
  induction l with
  | nil => rfl
  | cons it rest ih =>
    simp only [getPieceAtLoop, pos_eq h, Option.bind_eq_bind, Option.some_bind, firstLabel, ih]
    by_cases hb : (b.get it.2).testBit square.toNat = true
    · simp [hb, (and_two_pow_ne_zero _ _).2 hb]
    · have hz : ¬ (b.get it.2 &&& 2 ^ square.toNat ≠ 0) := fun hne =>
        hb ((and_two_pow_ne_zero _ _).1 hne)
      simp [hb, hz]

/-! ## What the scan of `getPieceAt` returns -/

theorem firstLabel_none {f : Slot → Bool} {l : List (Char × Slot)}
    (h : ∀ it ∈ l, f it.2 = false) : firstLabel f l = '-' := by
  induction l with
  | nil => rfl
  | cons it rest ih =>
    have h1 := h it (List.mem_cons_self _ _)
    simp only [firstLabel, h1]
    exact ih (fun x hx => h x (List.mem_cons_of_mem _ hx))

theorem firstLabel_cases (f : Slot → Bool) (l : List (Char × Slot)) :
    (firstLabel f l = '-' ∧ ∀ it ∈ l, f it.2 = false) ∨
      ∃ it ∈ l, f it.2 = true ∧ firstLabel f l = it.1 := by
  induction l with
  | nil => exact Or.inl ⟨rfl, by simp⟩
  | cons it rest ih =>
    by_cases h1 : f it.2 = true
    · exact Or.inr ⟨it, List.mem_cons_self _ _, h1, by simp [firstLabel, h1]⟩
    · have h1f : f it.2 = false := by simpa using h1
      rcases ih with ⟨h2, h3⟩ | ⟨x, hx, hfx, hl⟩
      · refine Or.inl ⟨by simp [firstLabel, h1f, h2], ?_⟩
        intro y hy
        rcases List.mem_cons.1 hy with e | e
        · rw [e]
          exact h1f
        · exact h3 y e
      · exact Or.inr ⟨x, List.mem_cons_of_mem _ hx, hfx, by simp [firstLabel, h1f, hl]⟩

/-- The scan finds no piece exactly when no mask satisfies `f`. -/
theorem firstLabel_eq_dash (m : PieceMap) (f : Slot → Bool) :
    firstLabel f m.val = '-' ↔ ∀ s, f s = false := by
  constructor
  · intro h s
    rcases firstLabel_cases f m.val with ⟨_, h2⟩ | ⟨x, hx, _, hl⟩
    · exact h2 (s.label, s) ((mem_map m _ _).2 rfl)
    · have e : x.1 = x.2.label := (mem_map m x.1 x.2).1 hx
      rw [h, e] at hl
      exact absurd hl.symm (label_ne_dash _)
  · intro h
    exact firstLabel_none (fun it _ => h it.2)

/-- The scan returns the label of a mask that satisfies `f`, if it returns a label. -/
theorem firstLabel_sound (m : PieceMap) (f : Slot → Bool) (h : firstLabel f m.val ≠ '-') :
    ∃ s, f s = true ∧ firstLabel f m.val = s.label := by
  rcases firstLabel_cases f m.val with ⟨h1, _⟩ | ⟨x, hx, hfx, hl⟩
  · exact absurd h1 h
  · exact ⟨x.2, hfx, by rw [hl]; exact (mem_map m x.1 x.2).1 hx⟩

/-- When a single mask satisfies `f`, the scan returns its label in every iteration order. -/
theorem firstLabel_unique (m : PieceMap) (f : Slot → Bool) (s : Slot) (hs : f s = true)
    (hu : ∀ t, f t = true → t = s) : firstLabel f m.val = s.label := by
  have hne : firstLabel f m.val ≠ '-' := by
    intro h
    have := (firstLabel_eq_dash m f).1 h s
    rw [hs] at this
    exact absurd this (by decide)
  obtain ⟨t, ht, hl⟩ := firstLabel_sound m f hne
  rw [hl, hu t ht]

/-! ## The operations on squares `0..63` -/

theorem getPieceAt_eq (b : Board) {square : Int} (h : inRange square) :
    getPieceAt b square =
      some (firstLabel (fun s => (b.get s).testBit square.toNat) b.pieceBitboards.val) :=
  getPieceAtLoop_eq b h _

theorem isSquareFull_eq (b : Board) {square : Int} (h : inRange square) :
    isSquareFull b square = some (decide (∃ s, (b.get s).testBit square.toNat = true)) := by
  simp only [isSquareFull, pos_eq h, Option.bind_eq_bind, Option.some_bind, Option.pure_def,
    Option.some.injEq, decide_eq_decide]
  rw [and_two_pow_ne_zero, testBit_getAllFullSquares]

theorem clearSquare_spec (b : Board) {square : Int} (h : inRange square) :
    ∃ c, clearSquare b square = some c ∧ c.pieceBitboards = b.pieceBitboards ∧
      ∀ s j, (c.get s).testBit j =
        ((b.get s).testBit j && (decide (j < 64) && !decide (square.toNat = j))) := by
  refine ⟨b.pieceBitboards.val.foldl
    (fun acc it => acc.set it.2 (acc.get it.2 &&& (2 ^ 64 - 1 - 2 ^ square.toNat))) b,
    ?_, foldl_and_map _ _ _, ?_⟩
  · simp only [clearSquare, pos_eq h, Option.bind_eq_bind, Option.some_bind, Option.pure_def]
  intro s j
  rw [foldl_and_get, if_pos (slot_mem_map _ s), Nat.testBit_and, testBit_not_pos (toNat_lt h)]

theorem setSquare_spec (b : Board) {square : Int} (h : inRange square) (piece : Char) :
    ∃ c, setSquare b square piece = some c ∧ c.pieceBitboards = b.pieceBitboards ∧
      ∀ s j, (c.get s).testBit j =
        (((b.get s).testBit j && (decide (j < 64) && !decide (square.toNat = j))) ||
          (decide (piece = s.label) && decide (square.toNat = j))) := by
  obtain ⟨b1, h1, hm1, hb1⟩ := clearSquare_spec b h
  by_cases hp : ∃ t : Slot, piece = t.label
  · obtain ⟨t, rfl⟩ := hp
    refine ⟨b1.set t (b1.get t ||| 2 ^ square.toNat), ?_, ?_, ?_⟩
    · simp [setSquare, h1, lookup_label, pos_eq h]
    · rw [pieceBitboards_set, hm1]
    · intro s j
      rw [get_set]
      by_cases hst : s = t
      · subst hst
        simp [Nat.testBit_or, Nat.testBit_two_pow, hb1]
      · have hl : t.label ≠ s.label := fun e => hst (label_injective e).symm
        simp [hst, hl, hb1]
  · have hn : ∀ t : Slot, piece ≠ t.label := fun t e => hp ⟨t, e⟩
    refine ⟨b1, ?_, hm1, ?_⟩
    · simp [setSquare, h1, lookup_not_label _ _ hn]
    · intro s j
      simp [hn s, hb1]

theorem movePiece_spec (b : Board) {a t : Int} (ha : inRange a) (ht : inRange t) :
    ∃ c, movePiece b a t = some c ∧ c.pieceBitboards = b.pieceBitboards ∧
      ((firstLabel (fun s => (b.get s).testBit a.toNat) b.pieceBitboards.val = '-' ∧ c = b) ∨
       (firstLabel (fun s => (b.get s).testBit a.toNat) b.pieceBitboards.val ≠ '-' ∧
        ∀ s j, (c.get s).testBit j =
          (((b.get s).testBit j && (decide (j < 64) && !decide (a.toNat = j)) &&
              (decide (j < 64) && !decide (t.toNat = j))) ||
            (decide (firstLabel (fun s => (b.get s).testBit a.toNat) b.pieceBitboards.val
                = s.label) && decide (t.toNat = j))))) := by
  by_cases hp : firstLabel (fun s => (b.get s).testBit a.toNat) b.pieceBitboards.val = '-'
  · exact ⟨b, by simp [movePiece, getPieceAt_eq b ha, hp], rfl, Or.inl ⟨hp, rfl⟩⟩
  · obtain ⟨b1, h1, hm1, hb1⟩ := clearSquare_spec b ha
    obtain ⟨b2, h2, hm2, hb2⟩ := setSquare_spec b1 ht
      (firstLabel (fun s => (b.get s).testBit a.toNat) b.pieceBitboards.val)
    refine ⟨b2, ?_, by rw [hm2, hm1], Or.inr ⟨hp, ?_⟩⟩
    · simp [movePiece, getPieceAt_eq b ha, hp, h1, h2]
    · intro s j
      rw [hb2, hb1]

/-! ## Disjointness -/

theorem disjoint_iff (b : Board) :
    b.Disjoint ↔ ∀ s t : Slot, s ≠ t → ∀ j,
      ¬ ((b.get s).testBit j = true ∧ (b.get t).testBit j = true) := by
  constructor
  · intro h s t hst j hj
    have := congrArg (fun x => x.testBit j) (h s t hst)
    simp [Nat.testBit_and, hj.1, hj.2] at this
  · intro h s t hst
    apply Nat.eq_of_testBit_eq
    intro j
    have := h s t hst j
    rw [Nat.testBit_and, Nat.zero_testBit]
    cases h1 : (b.get s).testBit j <;> cases h2 : (b.get t).testBit j <;> simp_all

theorem clearSquare_disjoint {b c : Board} {square : Int} (h : inRange square)
    (hd : b.Disjoint) (hc : clearSquare b square = some c) : c.Disjoint := by
  obtain ⟨c1, h1, _, hb⟩ := clearSquare_spec b h
  rw [h1] at hc
  cases hc
  rw [disjoint_iff] at hd ⊢
  intro s t hst j hj
  rw [hb, hb] at hj
  simp only [Bool.and_eq_true] at hj
  exact hd s t hst j ⟨hj.1.1, hj.2.1⟩

theorem setSquare_disjoint {b c : Board} {square : Int} (h : inRange square) (piece : Char)
    (hd : b.Disjoint) (hc : setSquare b square piece = some c) : c.Disjoint := by
  obtain ⟨c1, h1, _, hb⟩ := setSquare_spec b h piece
  rw [h1] at hc
  cases hc
  rw [disjoint_iff] at hd ⊢
  intro s t hst j hj
  rw [hb, hb] at hj
  simp only [Bool.and_eq_true, Bool.or_eq_true, decide_eq_true_eq, Bool.not_eq_true',
    decide_eq_false_iff_not] at hj
  obtain ⟨hs, ht⟩ := hj
  rcases hs with hs | hs <;> rcases ht with ht | ht
  · exact hd s t hst j ⟨hs.1, ht.1⟩
  · exact hs.2.2 ht.2
  · exact ht.2.2 hs.2
  · exact hst (label_injective (hs.1.symm.trans ht.1))

theorem movePiece_disjoint {b c : Board} {a t : Int} (ha : inRange a) (ht : inRange t)
    (hd : b.Disjoint) (hc : movePiece b a t = some c) : c.Disjoint := by
  by_cases hp : firstLabel (fun s => (b.get s).testBit a.toNat) b.pieceBitboards.val = '-'
  · simp [movePiece, getPieceAt_eq b ha, hp] at hc
    rw [← hc]
    exact hd
  · obtain ⟨b1, h1, _, _⟩ := clearSquare_spec b ha
    simp [movePiece, getPieceAt_eq b ha, hp, h1] at hc
    exact setSquare_disjoint ht _ (clearSquare_disjoint ha hd h1) hc

theorem apply_disjoint {b : Board} (op : Op) (h : op.InRange) (hd : b.Disjoint) :
    ∃ c, op.apply b = some c ∧ c.Disjoint := by
  cases op with
  | setSquare i ch =>
    obtain ⟨c, hc, _⟩ := setSquare_spec b h ch
    exact ⟨c, hc, setSquare_disjoint h ch hd hc⟩
  | clearSquare i =>
    obtain ⟨c, hc, _⟩ := clearSquare_spec b h
    exact ⟨c, hc, clearSquare_disjoint h hd hc⟩
  | movePiece i j =>
    obtain ⟨c, hc, _⟩ := movePiece_spec b h.1 h.2
    exact ⟨c, hc, movePiece_disjoint h.1 h.2 hd hc⟩

theorem applyOps_disjoint (ops : List Op) (b : Board) (h : ∀ op ∈ ops, op.InRange)
    (hd : b.Disjoint) : ∃ c, applyOps b ops = some c ∧ c.Disjoint := by
  induction ops generalizing b with
  | nil => exact ⟨b, rfl, hd⟩
  | cons op rest ih =>
    obtain ⟨b1, h1, hd1⟩ := apply_disjoint op (h op (List.mem_cons_self _ _)) hd
    obtain ⟨c, hc, hdc⟩ := ih b1 (fun x hx => h x (List.mem_cons_of_mem _ hx)) hd1
    exact ⟨c, by simp [applyOps, h1, hc], hdc⟩

theorem init_disjoint (m : PieceMap) : (Board.init m).Disjoint := by
  intro s t hst
  cases s <;> cases t <;> first | exact absurd rfl hst | (simp [Board.init, Board.get]; rfl)

/-! ## Effect of a move -/

theorem occupied_iff (b : Board) {a : Int} (ha : inRange a) :
    isSquareFull b a = some true ↔
      firstLabel (fun s => (b.get s).testBit a.toNat) b.pieceBitboards.val ≠ '-' := by
  rw [isSquareFull_eq b ha, Ne, firstLabel_eq_dash]
  simp

theorem empty_iff (b : Board) {a : Int} (ha : inRange a) :
    isSquareFull b a = some false ↔ ∀ s, (b.get s).testBit a.toNat = false := by
  rw [isSquareFull_eq b ha]
  simp

/-- Moving from an occupied square `a` to `t`, both in `0..63`: the move is performed, the
map is untouched, and each bit of each mask afterwards is given explicitly. As a result `t`
reads as the moved label, `a` reads as empty unless `a = t`, and no other square changes. -/
theorem movePiece_effect (b : Board) {a t : Int} (ha : inRange a) (ht : inRange t) {c : Char}
    (hocc : isSquareFull b a = some true) (hc : getPieceAt b a = some c) :
    ∃ b', movePiece b a t = some b' ∧ b'.pieceBitboards = b.pieceBitboards ∧
      (∀ s j, (b'.get s).testBit j =
        (((b.get s).testBit j && (decide (j < 64) && !decide (a.toNat = j)) &&
            (decide (j < 64) && !decide (t.toNat = j))) ||
          (decide (c = s.label) && decide (t.toNat = j)))) ∧
      getPieceAt b' t = some c ∧
      (a ≠ t → getPieceAt b' a = some '-') ∧
      ∀ x, inRange x → x ≠ a → x ≠ t → getPieceAt b' x = getPieceAt b x := by
  have hne := (occupied_iff b ha).1 hocc
  obtain ⟨s0, _, hs0⟩ := firstLabel_sound b.pieceBitboards _ hne
  rw [getPieceAt_eq b ha, Option.some.injEq] at hc
  obtain ⟨b', hmv, hm, hcase⟩ := movePiece_spec b ha ht
  rcases hcase with ⟨h0, _⟩ | ⟨_, hbits⟩
  · exact absurd h0 hne
  rw [hc] at hbits hs0
  refine ⟨b', hmv, hm, hbits, ?_, ?_, ?_⟩
  · rw [getPieceAt_eq b' ht, hm, hs0]
    congr 1
    apply firstLabel_unique
    · simp [hbits, hs0]
    · intro u hu
      simp only [hbits, hs0, decide_True, Bool.not_true, Bool.and_false, Bool.and_true,
        Bool.false_or, decide_eq_true_eq] at hu
      exact (label_injective hu).symm
  · intro hat
    have hn : a.toNat ≠ t.toNat := fun e => hat (toNat_inj ha ht e)
    rw [getPieceAt_eq b' ha, hm]
    congr 1
    rw [firstLabel_eq_dash]
    intro s
    simp [hbits, Ne.symm hn]
  · intro x hx hxa hxt
    have h1 : a.toNat ≠ x.toNat := fun e => hxa (toNat_inj hx ha e.symm)
    have h2 : t.toNat ≠ x.toNat := fun e => hxt (toNat_inj hx ht e.symm)
    rw [getPieceAt_eq b' hx, getPieceAt_eq b hx, hm]
    congr 2
    funext s
    simp [hbits, h1, h2, toNat_lt hx]

/-! ## Claims -/

/-- C1. Mask disjointness is an invariant of the board: whatever order the map is iterated
in, the board built by the constructor has twelve pairwise disjoint masks, and every finite
sequence of `setSquare(i, c)`, `clearSquare(i)` and `movePiece(i, j)` calls with all square
indices in `0..63` (and `c` any character) runs to completion on it and ends in a board
whose twelve masks are pairwise disjoint. -/
theorem mask_disjointness_invariant (m : PieceMap) (ops : List Op)
    (h : ∀ op ∈ ops, op.InRange) :
    (Board.init m).Disjoint ∧ ∃ b, applyOps (Board.init m) ops = some b ∧ b.Disjoint :=
  ⟨init_disjoint m, applyOps_disjoint ops _ h (init_disjoint m)⟩

theorem mask_disjointness_invariant_witness :
    (∀ op ∈ [Op.movePiece 12 28, Op.setSquare 28 'q', Op.clearSquare 0, Op.setSquare 5 'x',
        Op.movePiece 60 4], op.InRange) ∧
      ((Board.init PieceMap.std).Disjoint ∧
        ∃ b, applyOps (Board.init PieceMap.std)
          [Op.movePiece 12 28, Op.setSquare 28 'q', Op.clearSquare 0, Op.setSquare 5 'x',
            Op.movePiece 60 4] = some b ∧ b.Disjoint) :=
  ⟨by decide, mask_disjointness_invariant PieceMap.std _ (by decide)⟩

/-- C2. Move preserves piece identity: on a board with pairwise disjoint masks, for squares
`a` and `t` in `0..63` with `a` occupied and holding label `c` and `t` empty, `movePiece(a, t)`
is performed and afterwards `getPieceAt(a)` is `'-'`, `getPieceAt(t)` is `c`, and
`getPieceAt(x)` is what it was for every other square `x` in `0..63`. -/
theorem move_preserves_piece_identity (b : Board) (a t : Int) (c : Char)
    (_hd : b.Disjoint) (ha : inRange a) (ht : inRange t)
    (hocc : isSquareFull b a = some true) (hc : getPieceAt b a = some c)
    (hemp : isSquareFull b t = some false) :
    ∃ b', movePiece b a t = some b' ∧ getPieceAt b' a = some '-' ∧ getPieceAt b' t = some c ∧
      ∀ x, inRange x → x ≠ a → x ≠ t → getPieceAt b' x = getPieceAt b x := by
  have hat : a ≠ t := by
    intro e
    rw [e, hemp] at hocc
    exact absurd hocc (by decide)
  obtain ⟨b', hmv, _, _, h1, h2, h3⟩ := movePiece_effect b ha ht hocc hc
  exact ⟨b', hmv, h2 hat, h1, h3⟩

theorem move_preserves_piece_identity_witness :
    ∃ b', movePiece (Board.init PieceMap.std) 12 28 = some b' ∧
      getPieceAt b' 12 = some '-' ∧ getPieceAt b' 28 = some 'P' ∧
      ∀ x, inRange x → x ≠ 12 → x ≠ 28 →
        getPieceAt b' x = getPieceAt (Board.init PieceMap.std) x :=
  move_preserves_piece_identity (Board.init PieceMap.std) 12 28 'P' (init_disjoint _)
    (by decide) (by decide) (by decide) (by decide) (by decide)

/-- C3. Unconditional capture: on a board with pairwise disjoint masks, for distinct squares
`a` and `t` in `0..63` that are both occupied, with labels `c` at `a` and `d` at `t` (of
either side, `c = d` included), `movePiece(a, t)` is performed and afterwards `getPieceAt(t)`
is `c`, `getPieceAt(a)` is `'-'`, the mask the map holds for `d` had bit `t` set before and
has it clear afterwards unless `d = c`, and `getPieceAt(x)` is what it was for every other
square `x` in `0..63`. -/
theorem unconditional_capture (b : Board) (a t : Int) (c d : Char)
    (_hd : b.Disjoint) (ha : inRange a) (ht : inRange t) (hat : a ≠ t)
    (hocca : isSquareFull b a = some true) (hc : getPieceAt b a = some c)
    (hocct : isSquareFull b t = some true) (hdl : getPieceAt b t = some d) :
    ∃ b', movePiece b a t = some b' ∧ getPieceAt b' t = some c ∧ getPieceAt b' a = some '-' ∧
      (∀ s, b.pieceBitboards.val.lookup d = some s →
        b.get s &&& 2 ^ t.toNat ≠ 0 ∧ (d ≠ c → b'.get s &&& 2 ^ t.toNat = 0)) ∧
      ∀ x, inRange x → x ≠ a → x ≠ t → getPieceAt b' x = getPieceAt b x := by
  obtain ⟨b', hmv, _, hbits, h1, h2, h3⟩ := movePiece_effect b ha ht hocca hc
  refine ⟨b', hmv, h1, h2 hat, ?_, h3⟩
  intro s hs
  have hds : d = s.label := (mem_map _ _ _).1 (mem_of_lookup_eq_some hs)
  have hne := (occupied_iff b ht).1 hocct
  rw [getPieceAt_eq b ht, Option.some.injEq] at hdl
  obtain ⟨u, hu, hlu⟩ := firstLabel_sound b.pieceBitboards _ hne
  have hus : u = s := label_injective (by rw [← hlu, hdl, hds])
  subst hus
  refine ⟨(and_two_pow_ne_zero _ _).2 hu, ?_⟩
  intro hdc
  have hcs : c ≠ u.label := fun e => hdc (hds.trans e.symm)
  have hz : (b'.get u).testBit t.toNat = false := by simp [hbits, hcs]
  by_contra hnz
  rw [(and_two_pow_ne_zero _ _).1 hnz] at hz
  exact absurd hz (by decide)

theorem unconditional_capture_witness :
    ∃ b', movePiece (Board.init PieceMap.std) 12 52 = some b' ∧
      getPieceAt b' 52 = some 'P' ∧ getPieceAt b' 12 = some '-' ∧
      (∀ s, (Board.init PieceMap.std).pieceBitboards.val.lookup 'p' = some s →
        (Board.init PieceMap.std).get s &&& 2 ^ (52 : Int).toNat ≠ 0 ∧
          ('p' ≠ 'P' → b'.get s &&& 2 ^ (52 : Int).toNat = 0)) ∧
      ∀ x, inRange x → x ≠ 12 → x ≠ 52 →
        getPieceAt b' x = getPieceAt (Board.init PieceMap.std) x :=
  unconditional_capture (Board.init PieceMap.std) 12 52 'P' 'p' (init_disjoint _)
    (by decide) (by decide) (by decide) (by decide) (by decide) (by decide) (by decide)

/-! ## Square notation -/

theorem char_lt_iff (c d : Char) : c < d ↔ c.toNat < d.toNat := by
  rw [Char.lt_def, UInt32.lt_def]
  rfl

theorem char_le_iff (c d : Char) : c ≤ d ↔ c.toNat ≤ d.toNat := by
  rw [Char.le_def, UInt32.le_def]
  rfl

theorem notationToIndex_eq (square : String) :
    notationToIndex square =
      if square.length ≠ 2 ∨ fileOf square < 'a' ∨ fileOf square > 'h' ∨
          rankOf square < '1' ∨ rankOf square > '8' then -1
      else (((rankOf square).toNat : Int) - ('1'.toNat : Int)) * 8 +
        (((fileOf square).toNat : Int) - ('a'.toNat : Int)) := by
  unfold notationToIndex fileOf rankOf
  by_cases h1 : square.length ≠ 2
  · simp [h1]
  · by_cases h2 : (square.toList.getD 0 default).toLower < 'a' ∨
        (square.toList.getD 0 default).toLower > 'h'
    · rw [if_neg h1, if_pos h2, if_pos]
      rcases h2 with h2 | h2
      · exact Or.inr (Or.inl h2)
      · exact Or.inr (Or.inr (Or.inl h2))
    · by_cases h3 : square.toList.getD 1 default < '1' ∨ square.toList.getD 1 default > '8'
      · rw [if_neg h1, if_neg h2, if_pos h3, if_pos]
        rcases h3 with h3 | h3
        · exact Or.inr (Or.inr (Or.inr (Or.inl h3)))
        · exact Or.inr (Or.inr (Or.inr (Or.inr h3)))
      · rw [if_neg h1, if_neg h2, if_neg h3, if_neg]
        rintro (h | h | h | h | h)
        · exact h1 h
        · exact h2 (Or.inl h)
        · exact h2 (Or.inr h)
        · exact h3 (Or.inl h)
        · exact h3 (Or.inr h)

/-- A string that passes the three checks of `notationToIndex` gets an index in `0..63`. -/
theorem notationToIndex_valid (square : String)
    (h : ¬ (square.length ≠ 2 ∨ fileOf square < 'a' ∨ fileOf square > 'h' ∨
      rankOf square < '1' ∨ rankOf square > '8')) :
    inRange (notationToIndex square) := by
  rw [notationToIndex_eq, if_neg h]
  simp only [not_or, gt_iff_lt, char_lt_iff, not_lt] at h
  obtain ⟨_, h1, h2, h3, h4⟩ := h
  have e1 : ('a' : Char).toNat = 97 := rfl
  have e2 : ('h' : Char).toNat = 104 := rfl
  have e3 : ('1' : Char).toNat = 49 := rfl
  have e4 : ('8' : Char).toNat = 56 := rfl
  rw [e1] at h1
  rw [e2] at h2
  rw [e3] at h3
  rw [e4] at h4
  unfold inRange
  rw [e1, e3]
  omega

/-- The result of `notationToIndex` is the invalid marker or a square index in `0..63`. -/
theorem notationToIndex_range (square : String) :
    notationToIndex square = -1 ∨ inRange (notationToIndex square) := by
  by_cases h : square.length ≠ 2 ∨ fileOf square < 'a' ∨ fileOf square > 'h' ∨
      rankOf square < '1' ∨ rankOf square > '8'
  · left
    rw [notationToIndex_eq, if_pos h]
  · exact Or.inr (notationToIndex_valid square h)

/-! ## processMove -/

/-- The five ways a call of `processMove` can go, one per exit of the function, each with the
gate conditions that lead to it and the result it produces. -/
theorem processMove_cases (b : Board) (f t : String) (w : Bool) :
    ((notationToIndex f = -1 ∨ notationToIndex t = -1) ∧
      processMove b f t w = some ⟨false, b, "Invalid square notation.\n"⟩) ∨
    (notationToIndex f ≠ -1 ∧ notationToIndex t ≠ -1 ∧
      isSquareFull b (notationToIndex f) = some false ∧
      processMove b f t w = some ⟨false, b, "No piece at " ++ f ++ ".\n"⟩) ∨
    (∃ c, notationToIndex f ≠ -1 ∧ notationToIndex t ≠ -1 ∧
      isSquareFull b (notationToIndex f) = some true ∧
      getPieceAt b (notationToIndex f) = some c ∧ w = true ∧ c.isUpper = false ∧
      processMove b f t w =
        some ⟨false, b, "It\x27s White\x27s turn. Move a white piece.\n"⟩) ∨
    (∃ c, notationToIndex f ≠ -1 ∧ notationToIndex t ≠ -1 ∧
      isSquareFull b (notationToIndex f) = some true ∧
      getPieceAt b (notationToIndex f) = some c ∧ w = false ∧ c.isLower = false ∧
      processMove b f t w =
        some ⟨false, b, "It\x27s Black\x27s turn. Move a black piece.\n"⟩) ∨
    (∃ c b', notationToIndex f ≠ -1 ∧ notationToIndex t ≠ -1 ∧
      isSquareFull b (notationToIndex f) = some true ∧
      getPieceAt b (notationToIndex f) = some c ∧
      (if w = true then c.isUpper = true else c.isLower = true) ∧
      movePiece b (notationToIndex f) (notationToIndex t) = some b' ∧
      processMove b f t w = some ⟨true, b', ""⟩) := by
  by_cases h1 : notationToIndex f = -1 ∨ notationToIndex t = -1
  · exact Or.inl ⟨h1, by simp [processMove, h1]⟩
  right
  have hf : notationToIndex f ≠ -1 := fun e => h1 (Or.inl e)
  have ht : notationToIndex t ≠ -1 := fun e => h1 (Or.inr e)
  have rf : inRange (notationToIndex f) := (notationToIndex_range f).resolve_left hf
  have rt : inRange (notationToIndex t) := (notationToIndex_range t).resolve_left ht
  have hpc := getPieceAt_eq b rf
  cases hfull : decide (∃ s, (b.get s).testBit (notationToIndex f).toNat = true) with
  | false =>
    have hsq : isSquareFull b (notationToIndex f) = some false := by
      rw [isSquareFull_eq b rf, hfull]
    exact Or.inl ⟨hf, ht, hsq, by simp [processMove, h1, hsq]⟩
  | true =>
    right
    have hsq : isSquareFull b (notationToIndex f) = some true := by
      rw [isSquareFull_eq b rf, hfull]
    obtain ⟨b', hmv, -⟩ := movePiece_spec b rf rt
    cases w with
    | true =>
      cases hu : (firstLabel (fun s => (b.get s).testBit (notationToIndex f).toNat)
          b.pieceBitboards.val).isUpper with
      | false =>
        exact Or.inl ⟨_, hf, ht, hsq, hpc, rfl, hu, by simp [processMove, h1, hsq, hpc, hu]⟩
      | true =>
        exact Or.inr (Or.inr ⟨_, b', hf, ht, hsq, hpc, by simp [hu], hmv,
          by simp [processMove, h1, hsq, hpc, hu, hmv]⟩)
    | false =>
      cases hl : (firstLabel (fun s => (b.get s).testBit (notationToIndex f).toNat)
          b.pieceBitboards.val).isLower with
      | false =>
        exact Or.inr (Or.inl ⟨_, hf, ht, hsq, hpc, rfl, hl,
          by simp [processMove, h1, hsq, hpc, hl]⟩)
      | true =>
        exact Or.inr (Or.inr ⟨_, b', hf, ht, hsq, hpc, by simp [hl], hmv,
          by simp [processMove, h1, hsq, hpc, hl, hmv]⟩)

/-- On a board with disjoint masks a set bit decides both occupancy queries, in every
iteration order of the map. -/
theorem queries_of_bit {b : Board} (hd : b.Disjoint) {i : Int} (hi : inRange i) {s : Slot}
    (hs : (b.get s).testBit i.toNat = true) :
    isSquareFull b i = some true ∧ getPieceAt b i = some s.label := by
  constructor
  · rw [isSquareFull_eq b hi]
    simp only [Option.some.injEq, decide_eq_true_eq]
    exact ⟨s, hs⟩
  · rw [getPieceAt_eq b hi]
    congr 1
    apply firstLabel_unique _ _ s hs
    intro u hu
    by_contra hne
    exact (disjoint_iff b).1 hd u s hne i.toNat ⟨hu, hs⟩

/-- C4. On a board with pairwise disjoint masks `processMove(from, to, isWhitePlaying)` always
returns, and it returns true if and only if all three gates pass: both notations parse to a
valid index, the origin square is occupied, and the label at the origin is an uppercase
letter when `isWhitePlaying` is true and a lowercase letter when it is false. When it returns
true the board afterwards is exactly the one `movePiece` produces from the two parsed
indices; nothing is asked of the destination beyond its notation being valid. -/
theorem processMove_true_iff_gates (b : Board) (f t : String) (w : Bool) (_hd : b.Disjoint) :
    ∃ r, processMove b f t w = some r ∧
      (r.ok = true ↔
        ((notationToIndex f ≠ -1 ∧ notationToIndex t ≠ -1) ∧
          isSquareFull b (notationToIndex f) = some true ∧
          ∃ c, getPieceAt b (notationToIndex f) = some c ∧
            (if w = true then c.isUpper = true else c.isLower = true))) ∧
      (r.ok = true → movePiece b (notationToIndex f) (notationToIndex t) = some r.board) := by
  rcases processMove_cases b f t w with ⟨h1, hr⟩ | ⟨_, _, hsq, hr⟩ |
    ⟨c, _, _, _, hpc, hw, hu, hr⟩ | ⟨c, _, _, _, hpc, hw, hl, hr⟩ |
    ⟨c, b', hf, ht, hsq, hpc, hside, hmv, hr⟩
  · refine ⟨_, hr, ⟨fun h => absurd h (by simp), ?_⟩, fun h => absurd h (by simp)⟩
    rintro ⟨⟨hf, ht⟩, -⟩
    rcases h1 with e | e
    · exact absurd e hf
    · exact absurd e ht
  · refine ⟨_, hr, ⟨fun h => absurd h (by simp), ?_⟩, fun h => absurd h (by simp)⟩
    rintro ⟨-, hfull, -⟩
    rw [hsq] at hfull
    exact absurd hfull (by decide)
  · refine ⟨_, hr, ⟨fun h => absurd h (by simp), ?_⟩, fun h => absurd h (by simp)⟩
    rintro ⟨-, -, c', hc', hside⟩
    rw [hpc, Option.some.injEq] at hc'
    subst hc' hw
    simp [hu] at hside
  · refine ⟨_, hr, ⟨fun h => absurd h (by simp), ?_⟩, fun h => absurd h (by simp)⟩
    rintro ⟨-, -, c', hc', hside⟩
    rw [hpc, Option.some.injEq] at hc'
    subst hc' hw
    simp [hl] at hside
  · exact ⟨_, hr, ⟨fun _ => ⟨⟨hf, ht⟩, hsq, c, hpc, hside⟩, fun _ => rfl⟩, fun _ => hmv⟩

theorem processMove_true_iff_gates_witness :
    ∃ r, processMove (Board.init PieceMap.std) "e2" "e4" true = some r ∧
      (r.ok = true ↔
        ((notationToIndex "e2" ≠ -1 ∧ notationToIndex "e4" ≠ -1) ∧
          isSquareFull (Board.init PieceMap.std) (notationToIndex "e2") = some true ∧
          ∃ c, getPieceAt (Board.init PieceMap.std) (notationToIndex "e2") = some c ∧
            (if true = true then c.isUpper = true else c.isLower = true))) ∧
      (r.ok = true →
        movePiece (Board.init PieceMap.std) (notationToIndex "e2") (notationToIndex "e4") =
          some r.board) :=
  processMove_true_iff_gates (Board.init PieceMap.std) "e2" "e4" true (init_disjoint _)

/-- C5. Failure is atomic: for every board, every pair of strings and every turn flag,
`processMove` returns, and if it returns false the board afterwards (all twelve masks, and
the map) is identical to the board before the call. -/
theorem processMove_failure_atomic (b : Board) (f t : String) (w : Bool) :
    ∃ r, processMove b f t w = some r ∧ (r.ok = false → r.board = b) := by
  rcases processMove_cases b f t w with ⟨_, hr⟩ | ⟨_, _, _, hr⟩ |
    ⟨c, _, _, _, _, _, _, hr⟩ | ⟨c, _, _, _, _, _, _, hr⟩ | ⟨c, b', _, _, _, _, _, _, hr⟩
  · exact ⟨_, hr, fun _ => rfl⟩
  · exact ⟨_, hr, fun _ => rfl⟩
  · exact ⟨_, hr, fun _ => rfl⟩
  · exact ⟨_, hr, fun _ => rfl⟩
  · exact ⟨_, hr, fun h => absurd h (by simp)⟩

theorem processMove_failure_atomic_witness :
    ∃ r, processMove (Board.init PieceMap.std) "e7" "e5" true = some r ∧ r.ok = false ∧
      r.board = Board.init PieceMap.std := by
  obtain ⟨r, hr, h⟩ := processMove_failure_atomic (Board.init PieceMap.std) "e7" "e5" true
  have e : processMove (Board.init PieceMap.std) "e7" "e5" true =
      some ⟨false, Board.init PieceMap.std,
        "It\x27s White\x27s turn. Move a white piece.\n"⟩ := by decide
  have hok : r.ok = false := by
    rw [e] at hr
    cases hr
    rfl
  exact ⟨r, hr, hok, h hok⟩

/-- C9. The diagnostic of a failing `processMove` is that of the first failing gate, in the
order notation, empty origin, wrong side. If either notation is invalid the call writes
"Invalid square notation." whatever the board holds and whichever side is to move. Otherwise,
if the origin is empty it writes "No piece at <from>." for both values of the turn flag.
Otherwise, with label `c` at the origin, it writes the message naming White when
`isWhitePlaying` is true and `c` is not uppercase, and the message naming Black when
`isWhitePlaying` is false and `c` is not lowercase. Every call returns; a failing call writes
exactly one of these four texts and nothing else, a successful call writes nothing. -/
theorem processMove_diagnostics (b : Board) (f t : String) :
    ((notationToIndex f = -1 ∨ notationToIndex t = -1) →
      ∀ w, processMove b f t w = some ⟨false, b, "Invalid square notation.\n"⟩) ∧
    (notationToIndex f ≠ -1 → notationToIndex t ≠ -1 →
      isSquareFull b (notationToIndex f) = some false →
      ∀ w, processMove b f t w = some ⟨false, b, "No piece at " ++ f ++ ".\n"⟩) ∧
    (notationToIndex f ≠ -1 → notationToIndex t ≠ -1 →
      isSquareFull b (notationToIndex f) = some true →
      ∀ c, getPieceAt b (notationToIndex f) = some c →
        (c.isUpper = false → processMove b f t true =
          some ⟨false, b, "It\x27s White\x27s turn. Move a white piece.\n"⟩) ∧
        (c.isLower = false → processMove b f t false =
          some ⟨false, b, "It\x27s Black\x27s turn. Move a black piece.\n"⟩)) ∧
    (∀ w, ∃ r, processMove b f t w = some r ∧
      (r.ok = true → r.out = "") ∧
      (r.ok = false →
        r.out = "Invalid square notation.\n" ∨
        r.out = "No piece at " ++ f ++ ".\n" ∨
        (w = true ∧ r.out = "It\x27s White\x27s turn. Move a white piece.\n") ∨
        (w = false ∧ r.out = "It\x27s Black\x27s turn. Move a black piece.\n"))) := by
  refine ⟨?_, ?_, ?_, ?_⟩
  · intro h w
    simp [processMove, h]
  · intro hf ht hsq w
    have h1 : ¬ (notationToIndex f = -1 ∨ notationToIndex t = -1) := by
      rintro (e | e)
      · exact hf e
      · exact ht e
    simp [processMove, h1, hsq]
  · intro hf ht hsq c hc
    have h1 : ¬ (notationToIndex f = -1 ∨ notationToIndex t = -1) := by
      rintro (e | e)
      · exact hf e
      · exact ht e
    constructor
    · intro hu
      simp [processMove, h1, hsq, hc, hu]
    · intro hl
      simp [processMove, h1, hsq, hc, hl]
  · intro w
    rcases processMove_cases b f t w with ⟨_, hr⟩ | ⟨_, _, _, hr⟩ |
      ⟨c, _, _, _, _, hw, _, hr⟩ | ⟨c, _, _, _, _, hw, _, hr⟩ | ⟨c, b', _, _, _, _, _, _, hr⟩
    · exact ⟨_, hr, fun h => absurd h (by simp), fun _ => Or.inl rfl⟩
    · exact ⟨_, hr, fun h => absurd h (by simp), fun _ => Or.inr (Or.inl rfl)⟩
    · exact ⟨_, hr, fun h => absurd h (by simp), fun _ => Or.inr (Or.inr (Or.inl ⟨hw, rfl⟩))⟩
    · exact ⟨_, hr, fun h => absurd h (by simp), fun _ => Or.inr (Or.inr (Or.inr ⟨hw, rfl⟩))⟩
    · exact ⟨_, hr, fun _ => rfl, fun h => absurd h (by simp)⟩

theorem processMove_diagnostics_witness :
    (∀ w, processMove (Board.init PieceMap.std) "e9" "e4" w =
      some ⟨false, Board.init PieceMap.std, "Invalid square notation.\n"⟩) ∧
    (∀ w, processMove (Board.init PieceMap.std) "e4" "e5" w =
      some ⟨false, Board.init PieceMap.std, "No piece at e4.\n"⟩) ∧
    processMove (Board.init PieceMap.std) "e7" "e5" true =
      some ⟨false, Board.init PieceMap.std,
        "It\x27s White\x27s turn. Move a white piece.\n"⟩ ∧
    processMove (Board.init PieceMap.std) "e2" "e4" false =
      some ⟨false, Board.init PieceMap.std,
        "It\x27s Black\x27s turn. Move a black piece.\n"⟩ :=
  ⟨(processMove_diagnostics (Board.init PieceMap.std) "e9" "e4").1 (by decide),
   (processMove_diagnostics (Board.init PieceMap.std) "e4" "e5").2.1
     (by decide) (by decide) (by decide),
   ((processMove_diagnostics (Board.init PieceMap.std) "e7" "e5").2.2.1
     (by decide) (by decide) (by decide) 'p' (by decide)).1 (by decide),
   ((processMove_diagnostics (Board.init PieceMap.std) "e2" "e4").2.2.1
     (by decide) (by decide) (by decide) 'P' (by decide)).2 (by decide)⟩

/-- C10. Turn gating on the initial position: on the board built by the constructor, in
every iteration order of the map, `processMove("e7", "e5", true)` returns false and leaves
the board (all twelve masks) unchanged, and `processMove("e2", "e4", true)` returns true. -/
theorem turn_gating_initial (m : PieceMap) :
    (∃ r, processMove (Board.init m) "e7" "e5" true = some r ∧ r.ok = false ∧
      r.board = Board.init m) ∧
    (∃ r, processMove (Board.init m) "e2" "e4" true = some r ∧ r.ok = true) := by
  have e7 : notationToIndex "e7" = 52 := by decide
  have e5 : notationToIndex "e5" = 36 := by decide
  have e2 : notationToIndex "e2" = 12 := by decide
  have e4 : notationToIndex "e4" = 28 := by decide
  have r52 : inRange 52 := by decide
  have r12 : inRange 12 := by decide
  have r28 : inRange 28 := by decide
  have b52 : ((Board.init m).get .bPawn).testBit (52 : Int).toNat = true := by
    simp [Board.init, Board.get]
    rfl
  have b12 : ((Board.init m).get .wPawn).testBit (12 : Int).toNat = true := by
    simp [Board.init, Board.get]
    rfl
  obtain ⟨f52, p52⟩ := queries_of_bit (init_disjoint m) r52 b52
  obtain ⟨f12, p12⟩ := queries_of_bit (init_disjoint m) r12 b12
  obtain ⟨b', hmv, -⟩ := movePiece_spec (Board.init m) r12 r28
  constructor
  · refine ⟨⟨false, Board.init m, "It\x27s White\x27s turn. Move a white piece.\n"⟩,
      ?_, rfl, rfl⟩
    simp [processMove, e7, e5, f52, p52, Slot.label]
  · refine ⟨⟨true, b', ""⟩, ?_, rfl⟩
    simp [processMove, e2, e4, f12, p12, Slot.label, hmv]

/-! ## Claims about square notation -/

theorem toLower_of_ge (c : Char) (h : 97 ≤ c.toNat) : c.toLower = c := by
  unfold Char.toLower
  simp only
  rw [if_neg]
  omega

theorem notationToIndex_mk (f r : Char) (hf : 'a' ≤ f ∧ f ≤ 'h') (hr : '1' ≤ r ∧ r ≤ '8') :
    notationToIndex (String.mk [f, r]) = ((r.toNat : Int) - 49) * 8 + ((f.toNat : Int) - 97) := by
  rw [char_le_iff, char_le_iff] at hf hr
  have e1 : ('a' : Char).toNat = 97 := rfl
  have e2 : ('h' : Char).toNat = 104 := rfl
  have e3 : ('1' : Char).toNat = 49 := rfl
  have e4 : ('8' : Char).toNat = 56 := rfl
  rw [e1, e2] at hf
  rw [e3, e4] at hr
  have hfile : fileOf (String.mk [f, r]) = f := toLower_of_ge f hf.1
  have hrank : rankOf (String.mk [f, r]) = r := rfl
  have hlen : (String.mk [f, r]).length = 2 := rfl
  rw [notationToIndex_eq, hfile, hrank, if_neg]
  · rw [e1, e3]
    rfl
  · simp only [hlen, gt_iff_lt, char_lt_iff, e1, e2, e3, e4]
    omega

theorem char_eq_of_toNat {c d : Char} (h : c.toNat = d.toNat) : c = d := by
  rw [← Char.ofNat_toNat c, ← Char.ofNat_toNat d, h]

theorem squareName_round_trip : ∀ i : Fin 64, notationToIndex (squareName i) = ((i : Nat) : Int) := by
  decide

theorem squareName_mem : ∀ i : Fin 64,
    'a' ≤ Char.ofNat ('a'.toNat + i % 8) ∧ Char.ofNat ('a'.toNat + i % 8) ≤ 'h' ∧
    '1' ≤ Char.ofNat ('1'.toNat + i / 8) ∧ Char.ofNat ('1'.toNat + i / 8) ≤ '8' := by
  decide

theorem toLower_upper (c : Char) (h : 65 ≤ c.toNat ∧ c.toNat ≤ 90) :
    c.toLower.toNat = c.toNat + 32 := by
  unfold Char.toLower
  simp only
  rw [if_pos (by exact h)]
  obtain ⟨h1, h2⟩ := h
  generalize c.toNat = n at h1 h2
  interval_cases n <;> rfl

theorem toLower_toLower (c : Char) : c.toLower.toLower = c.toLower := by
  by_cases h : 65 ≤ c.toNat ∧ c.toNat ≤ 90
  · apply toLower_of_ge
    rw [toLower_upper c h]
    omega
  · have e : c.toLower = c := by
      unfold Char.toLower
      simp only
      rw [if_neg (by exact h)]
    rw [e, e]

theorem toLower_file_iff (c : Char) :
    (97 ≤ c.toLower.toNat ∧ c.toLower.toNat ≤ 104) ↔
      ((97 ≤ c.toNat ∧ c.toNat ≤ 104) ∨ (65 ≤ c.toNat ∧ c.toNat ≤ 72)) := by
  by_cases h : 65 ≤ c.toNat ∧ c.toNat ≤ 90
  · rw [toLower_upper c h]
    omega
  · have e : c.toLower = c := by
      unfold Char.toLower
      simp only
      rw [if_neg (by exact h)]
    rw [e]
    omega

theorem string_of_length_two (s : String) (h : s.length = 2) :
    ∃ f r, s = String.mk [f, r] := by
  obtain ⟨l⟩ := s
  match l, h with
  | [f, r], _ => exact ⟨f, r, rfl⟩

theorem isSquareName_iff (s : String) :
    isSquareName s = true ↔
      ∃ f r, s = String.mk [f, r] ∧ ('a' ≤ f ∧ f ≤ 'h') ∧ '1' ≤ r ∧ r ≤ '8' := by
  obtain ⟨l⟩ := s
  constructor
  · intro h
    match l, h with
    | [f, r], h =>
      exact ⟨f, r, rfl, by simpa [isSquareName] using h⟩
  · rintro ⟨f, r, e, h⟩
    rw [e]
    simpa [isSquareName] using h

theorem isAcceptedName_iff (s : String) :
    isAcceptedName s = true ↔
      ∃ f r, s = String.mk [f, r] ∧
        (('a' ≤ f ∧ f ≤ 'h') ∨ ('A' ≤ f ∧ f ≤ 'H')) ∧ '1' ≤ r ∧ r ≤ '8' := by
  obtain ⟨l⟩ := s
  constructor
  · intro h
    match l, h with
    | [f, r], h =>
      exact ⟨f, r, rfl, by simpa [isAcceptedName] using h⟩
  · rintro ⟨f, r, e, h⟩
    rw [e]
    simpa [isAcceptedName] using h

theorem notationToIndex_of_squareName {s : String} (h : isSquareName s = true) :
    ∃ f r, s = String.mk [f, r] ∧ (97 ≤ f.toNat ∧ f.toNat ≤ 104) ∧
      (49 ≤ r.toNat ∧ r.toNat ≤ 56) ∧
      notationToIndex s = ((r.toNat : Int) - 49) * 8 + ((f.toNat : Int) - 97) := by
  obtain ⟨f, r, e, hf, hr⟩ := (isSquareName_iff s).1 h
  refine ⟨f, r, e, ?_, ?_, ?_⟩
  · rw [char_le_iff, char_le_iff] at hf
    exact hf
  · rw [char_le_iff, char_le_iff] at hr
    exact hr
  · rw [e]
    exact notationToIndex_mk f r hf hr

theorem squareNames_bijOn :
    Set.BijOn notationToIndex {s | isSquareName s = true} {n | inRange n} := by
  refine ⟨?_, ?_, ?_⟩
  · intro s hs
    obtain ⟨f, r, _, hf, hr, hv⟩ := notationToIndex_of_squareName hs
    show inRange (notationToIndex s)
    rw [hv]
    unfold inRange
    omega
  · intro s hs u hu hsu
    obtain ⟨f, r, e1, hf, hr, hv⟩ := notationToIndex_of_squareName hs
    obtain ⟨g, q, e2, hg, hq, hw⟩ := notationToIndex_of_squareName hu
    rw [hv, hw] at hsu
    have h1 : f.toNat = g.toNat := by omega
    have h2 : r.toNat = q.toNat := by omega
    rw [e1, e2, char_eq_of_toNat h1, char_eq_of_toNat h2]
  · intro n hn
    have hlt : n.toNat < 64 := toNat_lt hn
    refine ⟨squareName n.toNat, ?_, ?_⟩
    · show isSquareName (squareName n.toNat) = true
      rw [isSquareName_iff]
      exact ⟨_, _, rfl, by
        have := squareName_mem ⟨n.toNat, hlt⟩
        exact ⟨⟨this.1, this.2.1⟩, this.2.2.1, this.2.2.2⟩⟩
    · have := squareName_round_trip ⟨n.toNat, hlt⟩
      simp only at this
      rw [this]
      exact Int.toNat_of_nonneg hn.1

/-- C6. Notation round trip: for every index `i` in `0..63`, the two-character string whose
first character is `'a' + (i mod 8)` and whose second character is `'1' + (i div 8)` is one
of the strings "a1".."h8" and is mapped by `notationToIndex` back to `i`; and
`notationToIndex` restricted to the strings "a1".."h8" is a bijection onto `0..63`. -/
theorem notation_round_trip :
    (∀ i : Fin 64, isSquareName (squareName i) = true ∧
      notationToIndex (squareName i) = ((i : Nat) : Int)) ∧
    Set.BijOn notationToIndex {s | isSquareName s = true} {n | inRange n} :=
  ⟨by decide, squareNames_bijOn⟩

/-- C7. `notationToIndex` returns the invalid marker `-1` exactly when the string length is
not 2, or the lowercased first character is outside `'a'..'h'`, or the second character is
outside `'1'..'8'`; in every other case it returns
`(second - '1') * 8 + (lowercase(first) - 'a')`, which is never `-1`. -/
theorem notationToIndex_invalid_iff (square : String) :
    (notationToIndex square = -1 ↔
      (square.length ≠ 2 ∨ fileOf square < 'a' ∨ fileOf square > 'h' ∨
        rankOf square < '1' ∨ rankOf square > '8')) ∧
    notationToIndex square =
      (if square.length ≠ 2 ∨ fileOf square < 'a' ∨ fileOf square > 'h' ∨
          rankOf square < '1' ∨ rankOf square > '8' then -1
       else (((rankOf square).toNat : Int) - ('1'.toNat : Int)) * 8 +
        (((fileOf square).toNat : Int) - ('a'.toNat : Int))) := by
  refine ⟨?_, notationToIndex_eq square⟩
  constructor
  · intro h
    by_contra hc
    have hr := notationToIndex_valid square hc
    rw [h] at hr
    exact absurd hr (by decide)
  · intro h
    rw [notationToIndex_eq, if_pos h]

/-- C8, the claim as stated fails: "A1" has two characters and is not one of the strings
"a1".."h8", yet `notationToIndex` accepts it, with the index of "a1". -/
theorem uppercase_file_accepted :
    "A1".length = 2 ∧ isSquareName "A1" = false ∧ notationToIndex "A1" = 0 ∧
      notationToIndex "a1" = 0 ∧
      ¬ (∀ s : String, s.length = 2 → isSquareName s = false → notationToIndex s = -1) := by
  refine ⟨by decide, by decide, by decide, by decide, ?_⟩
  intro h
  exact absurd (h "A1" (by decide) (by decide)) (by decide)

theorem passes_checks_iff_accepted (s : String) :
    ¬ (s.length ≠ 2 ∨ fileOf s < 'a' ∨ fileOf s > 'h' ∨ rankOf s < '1' ∨ rankOf s > '8') ↔
      isAcceptedName s = true := by
  have e1 : ('a' : Char).toNat = 97 := rfl
  have e2 : ('h' : Char).toNat = 104 := rfl
  have e3 : ('1' : Char).toNat = 49 := rfl
  have e4 : ('8' : Char).toNat = 56 := rfl
  have e5 : ('A' : Char).toNat = 65 := rfl
  have e6 : ('H' : Char).toNat = 72 := rfl
  rw [isAcceptedName_iff]
  constructor
  · intro h
    simp only [not_or, gt_iff_lt, char_lt_iff, not_lt, ne_eq, not_not, e1, e2, e3, e4] at h
    obtain ⟨hlen, h1, h2, h3, h4⟩ := h
    obtain ⟨f, r, e⟩ := string_of_length_two s hlen
    subst e
    have hf : fileOf (String.mk [f, r]) = f.toLower := rfl
    have hr : rankOf (String.mk [f, r]) = r := rfl
    rw [hf] at h1 h2
    rw [hr] at h3 h4
    refine ⟨f, r, rfl, ?_, ?_⟩
    · simp only [char_le_iff, e1, e2, e5, e6]
      exact (toLower_file_iff f).1 ⟨h1, h2⟩
    · simp only [char_le_iff, e3, e4]
      exact ⟨h3, h4⟩
  · rintro ⟨f, r, e, hf, hr⟩
    subst e
    have hfile : fileOf (String.mk [f, r]) = f.toLower := rfl
    have hrank : rankOf (String.mk [f, r]) = r := rfl
    have hlen : (String.mk [f, r]).length = 2 := rfl
    simp only [char_le_iff, e1, e2, e3, e4, e5, e6] at hf hr
    have hl := (toLower_file_iff f).2 hf
    simp only [hlen, hfile, hrank, gt_iff_lt, char_lt_iff, e1, e2, e3, e4]
    omega

/-- C8 as amended. The strings `notationToIndex` accepts are exactly those made of a file
letter `a`-`h` in either case followed by a rank digit `1`-`8`; every other string, of two
characters or not, gets the invalid marker. The file letter is lowercased before it is used,
so a string and the string with its first character lowercased get the same result, and
`notationToIndex` is a bijection onto `0..63` when restricted to the 64 strings
"a1".."h8". -/
theorem notation_accepted_iff :
    (∀ s : String, notationToIndex s ≠ -1 ↔ isAcceptedName s = true) ∧
    (∀ f r : Char,
      notationToIndex (String.mk [f, r]) = notationToIndex (String.mk [f.toLower, r])) ∧
    Set.BijOn notationToIndex {s | isSquareName s = true} {n | inRange n} := by
  refine ⟨?_, ?_, squareNames_bijOn⟩
  · intro s
    rw [← passes_checks_iff_accepted]
    constructor
    · intro h hc
      exact h (by rw [notationToIndex_eq, if_pos hc])
    · intro h e
      have hr := notationToIndex_valid s h
      rw [e] at hr
      exact absurd hr (by decide)
  · intro f r
    have h1 : fileOf (String.mk [f.toLower, r]) = fileOf (String.mk [f, r]) :=
      toLower_toLower f
    have h2 : rankOf (String.mk [f.toLower, r]) = rankOf (String.mk [f, r]) := rfl
    have h3 : (String.mk [f.toLower, r]).length = (String.mk [f, r]).length := rfl
    rw [notationToIndex_eq, notationToIndex_eq (String.mk [f.toLower, r]), h1, h2, h3]

/-! ## Independence of the scan order -/

/-- When at most one mask satisfies `f`, every iteration order gives the same scan result. -/
theorem firstLabel_order (m1 m2 : PieceMap) (f : Slot → Bool)
    (h : ∀ s t, f s = true → f t = true → s = t) :
    firstLabel f m1.val = firstLabel f m2.val := by
  by_cases he : ∃ s, f s = true
  · obtain ⟨s, hs⟩ := he
    rw [firstLabel_unique m1 f s hs (fun t ht => h t s ht hs),
      firstLabel_unique m2 f s hs (fun t ht => h t s ht hs)]
  · have hf : ∀ s, f s = false := fun s => by
      cases hfs : f s with
      | false => rfl
      | true => exact absurd ⟨s, hfs⟩ he
    rw [(firstLabel_eq_dash m1 f).2 hf, (firstLabel_eq_dash m2 f).2 hf]

/-- The map with the entry of `s` visited first. -/
theorem exists_order_first (s : Slot) :
    ∃ m : PieceMap, ∃ rest, m.val = (s.label, s) :: rest := by
  have hmem : (s.label, s) ∈ mapEntries := (mem_mapEntries _ _).2 rfl
  obtain ⟨l1, l2, e⟩ := List.append_of_mem hmem
  refine ⟨⟨(s.label, s) :: (l1 ++ l2), ?_⟩, _, rfl⟩
  rw [e]
  exact List.perm_middle.symm

theorem disjoint_bits_unique {b : Board} (hd : b.Disjoint) (j : Nat) (s t : Slot)
    (hs : (b.get s).testBit j = true) (ht : (b.get t).testBit j = true) : s = t := by
  by_contra hne
  exact (disjoint_iff b).1 hd s t hne j ⟨hs, ht⟩

/-- On a board with disjoint masks `getPieceAt` gives the same answer whatever map the board
carries, as long as the masks are the same. -/
theorem getPieceAt_same_masks {b c : Board} (hd : b.Disjoint) (h : ∀ s, b.get s = c.get s)
    {i : Int} (hi : inRange i) : getPieceAt b i = getPieceAt c i := by
  rw [getPieceAt_eq b hi, getPieceAt_eq c hi]
  have hf : (fun s => (b.get s).testBit i.toNat) = (fun s => (c.get s).testBit i.toNat) := by
    funext s
    rw [h s]
  rw [← hf]
  congr 1
  exact firstLabel_order _ _ _ (fun s t hs ht => disjoint_bits_unique hd _ s t hs ht)

theorem label_mem_letters (s : Slot) : s.label ∈ "KQRBNPkqrbnp".toList := by
  cases s <;> decide

theorem label_upper_xor_lower (s : Slot) : s.label.isUpper = !s.label.isLower := by
  cases s <;> decide

/-- An index in `0..63` gives both queries a result, and the two results agree. -/
theorem queries_agree (b : Board) {i : Int} (hi : inRange i) :
    ∃ full c, isSquareFull b i = some full ∧ getPieceAt b i = some c ∧
      (full = true ↔ c ≠ '-') ∧
      (full = true → ∃ s, c = s.label ∧ (b.get s).testBit i.toNat = true) := by
  refine ⟨_, _, isSquareFull_eq b hi, getPieceAt_eq b hi, ?_, ?_⟩
  · rw [Ne, firstLabel_eq_dash]
    simp
  · intro h
    have hne : firstLabel (fun s => (b.get s).testBit i.toNat) b.pieceBitboards.val ≠ '-' := by
      rw [Ne, firstLabel_eq_dash]
      simpa using h
    obtain ⟨s, hs, hl⟩ := firstLabel_sound b.pieceBitboards _ hne
    exact ⟨s, hl, hs⟩

/-! ## Claims about the queries -/

/-- C12. The board built by the constructor is the standard initial position, in every
iteration order of the map: `getPieceAt(i)` for `i = 0..7` spells "RNBQKBNR", for
`i = 8..15` is `'P'`, for `i = 16..47` is `'-'`, for `i = 48..55` is `'p'`, and for
`i = 56..63` spells "rnbqkbnr" (index layout `a1 = 0` .. `h8 = 63`). -/
theorem initial_position (m : PieceMap) :
    (List.range 8).map (fun i => getPieceAt (Board.init m) (i : Nat)) =
      "RNBQKBNR".toList.map some ∧
    (∀ i : Fin 8, getPieceAt (Board.init m) (8 + (i : Nat) : Nat) = some 'P') ∧
    (∀ i : Fin 32, getPieceAt (Board.init m) (16 + (i : Nat) : Nat) = some '-') ∧
    (∀ i : Fin 8, getPieceAt (Board.init m) (48 + (i : Nat) : Nat) = some 'p') ∧
    (List.range 8).map (fun i => getPieceAt (Board.init m) (56 + i : Nat)) =
      "rnbqkbnr".toList.map some := by
  have key : ∀ i : Fin 64, getPieceAt (Board.init m) ((i : Nat) : Int) =
      getPieceAt (Board.init PieceMap.std) ((i : Nat) : Int) := by
    intro i
    have hi : inRange ((i : Nat) : Int) := by
      have := i.isLt
      unfold inRange
      omega
    exact getPieceAt_same_masks (init_disjoint m) (fun s => by cases s <;> rfl) hi
  have std : ∀ i : Fin 64, getPieceAt (Board.init PieceMap.std) ((i : Nat) : Int) =
      some ("RNBQKBNRPPPPPPPP--------------------------------pppppppprnbqkbnr".toList.getD
        i '-') := by
    decide
  have all : ∀ i : Fin 64, getPieceAt (Board.init m) ((i : Nat) : Int) =
      some ("RNBQKBNRPPPPPPPP--------------------------------pppppppprnbqkbnr".toList.getD
        i '-') := fun i => (key i).trans (std i)
  refine ⟨?_, ?_, ?_, ?_, ?_⟩
  · simp only [List.range, List.range.loop, List.map]
    rw [all ⟨0, by decide⟩, all ⟨1, by decide⟩, all ⟨2, by decide⟩, all ⟨3, by decide⟩,
      all ⟨4, by decide⟩, all ⟨5, by decide⟩, all ⟨6, by decide⟩, all ⟨7, by decide⟩]
    rfl
  · intro i
    refine (all ⟨8 + i, by omega⟩).trans ?_
    revert i
    decide
  · intro i
    refine (all ⟨16 + i, by omega⟩).trans ?_
    revert i
    decide
  · intro i
    refine (all ⟨48 + i, by omega⟩).trans ?_
    revert i
    decide
  · simp only [List.range, List.range.loop, List.map]
    rw [all ⟨56 + 0, by decide⟩, all ⟨56 + 1, by decide⟩, all ⟨56 + 2, by decide⟩,
      all ⟨56 + 3, by decide⟩, all ⟨56 + 4, by decide⟩, all ⟨56 + 5, by decide⟩,
      all ⟨56 + 6, by decide⟩, all ⟨56 + 7, by decide⟩]
    rfl

/-- C15. `getPieceAt` does not depend on the scan order of the twelve masks. On a board with
pairwise disjoint masks and for a square `i` in `0..63`, scanning the (label, mask) pairs in
any permutation gives what `getPieceAt` gives: `'-'` when no mask has bit `i`, and otherwise
the label of the one mask that has it. On any board where two different masks both have bit
`i`, there are two scan orders that return two different labels. -/
theorem getPieceAt_scan_order :
    (∀ (b : Board) (i : Int), b.Disjoint → inRange i →
      (∀ m : PieceMap, getPieceAtLoop b i m.val = getPieceAt b i) ∧
      ((∀ s, b.get s &&& 2 ^ i.toNat = 0) → getPieceAt b i = some '-') ∧
      (∀ s, b.get s &&& 2 ^ i.toNat ≠ 0 →
        getPieceAt b i = some s.label ∧ ∀ t, b.get t &&& 2 ^ i.toNat ≠ 0 → t = s)) ∧
    (∀ (b : Board) (i : Int) (s t : Slot), inRange i → s ≠ t →
      b.get s &&& 2 ^ i.toNat ≠ 0 → b.get t &&& 2 ^ i.toNat ≠ 0 →
      ∃ m1 m2 : PieceMap, getPieceAtLoop b i m1.val = some s.label ∧
        getPieceAtLoop b i m2.val = some t.label ∧ s.label ≠ t.label) := by
  constructor
  · intro b i hd hi
    have huniq : ∀ s t, (b.get s).testBit i.toNat = true → (b.get t).testBit i.toNat = true →
        s = t := fun s t hs ht => disjoint_bits_unique hd _ s t hs ht
    refine ⟨?_, ?_, ?_⟩
    · intro m
      rw [getPieceAtLoop_eq b hi, getPieceAt_eq b hi]
      congr 1
      exact firstLabel_order _ _ _ huniq
    · intro h
      rw [getPieceAt_eq b hi]
      congr 1
      rw [firstLabel_eq_dash]
      intro s
      cases hb : (b.get s).testBit i.toNat with
      | false => rfl
      | true => exact absurd (h s) ((and_two_pow_ne_zero _ _).2 hb)
    · intro s hs
      have hb := (and_two_pow_ne_zero _ _).1 hs
      exact ⟨(queries_of_bit hd hi hb).2,
        fun t ht => huniq t s ((and_two_pow_ne_zero _ _).1 ht) hb⟩
  · intro b i s t hi hst hs ht
    obtain ⟨m1, r1, e1⟩ := exists_order_first s
    obtain ⟨m2, r2, e2⟩ := exists_order_first t
    refine ⟨m1, m2, ?_, ?_, fun e => hst (label_injective e)⟩
    · rw [getPieceAtLoop_eq b hi, e1]
      simp [firstLabel, (and_two_pow_ne_zero _ _).1 hs]
    · rw [getPieceAtLoop_eq b hi, e2]
      simp [firstLabel, (and_two_pow_ne_zero _ _).1 ht]

theorem getPieceAt_scan_order_witness :
    ((∀ m : PieceMap, getPieceAtLoop (Board.init PieceMap.std) 12 m.val =
        getPieceAt (Board.init PieceMap.std) 12) ∧
      getPieceAt (Board.init PieceMap.std) 12 = some 'P') ∧
    (∃ m1 m2 : PieceMap,
      getPieceAtLoop ((Board.init PieceMap.std).set .wKing 4096) 12 m1.val = some 'K' ∧
      getPieceAtLoop ((Board.init PieceMap.std).set .wKing 4096) 12 m2.val = some 'P' ∧
      'K' ≠ 'P') :=
  ⟨⟨(getPieceAt_scan_order.1 (Board.init PieceMap.std) 12 (init_disjoint _) (by decide)).1,
     ((getPieceAt_scan_order.1 (Board.init PieceMap.std) 12 (init_disjoint _)
       (by decide)).2.2 .wPawn (by decide)).1⟩,
   getPieceAt_scan_order.2 ((Board.init PieceMap.std).set .wKing 4096) 12 .wKing .wPawn
     (by decide) (by decide) (by decide) (by decide)⟩

/-- C18. The two occupancy queries agree. For every board and every square `i` in `0..63`
both queries return, `isSquareFull(i)` is true if and only if `getPieceAt(i)` is not `'-'`,
and whenever `isSquareFull(i)` is true `getPieceAt(i)` is one of the twelve letters
`KQRBNPkqrbnp`, hence uppercase or lowercase and never both or neither. So when both
notations are valid and the origin is occupied, `processMove` succeeds for exactly one of
the two values of the turn flag: exactly one of the two colour gates fails. -/
theorem occupancy_queries_agree (b : Board) :
    (∀ i : Int, inRange i →
      ∃ full c, isSquareFull b i = some full ∧ getPieceAt b i = some c ∧
        (full = true ↔ c ≠ '-') ∧
        (full = true → c ∈ "KQRBNPkqrbnp".toList ∧ c.isUpper = !c.isLower)) ∧
    (∀ f t : String, notationToIndex f ≠ -1 → notationToIndex t ≠ -1 →
      isSquareFull b (notationToIndex f) = some true →
      ∃ r1 r2, processMove b f t true = some r1 ∧ processMove b f t false = some r2 ∧
        r1.ok = !r2.ok) := by
  constructor
  · intro i hi
    obtain ⟨full, c, h1, h2, h3, h4⟩ := queries_agree b hi
    refine ⟨full, c, h1, h2, h3, ?_⟩
    intro hf
    obtain ⟨s, hs, _⟩ := h4 hf
    rw [hs]
    exact ⟨label_mem_letters s, label_upper_xor_lower s⟩
  · intro f t hf ht hfull
    have rf : inRange (notationToIndex f) := (notationToIndex_range f).resolve_left hf
    have rt : inRange (notationToIndex t) := (notationToIndex_range t).resolve_left ht
    obtain ⟨full, c, h1, h2, _, h4⟩ := queries_agree b rf
    rw [hfull, Option.some.injEq] at h1
    obtain ⟨s, hs, _⟩ := h4 h1.symm
    obtain ⟨b', hmv, -⟩ := movePiece_spec b rf rt
    have h1' : ¬ (notationToIndex f = -1 ∨ notationToIndex t = -1) := by
      rintro (e | e)
      · exact hf e
      · exact ht e
    have hx := label_upper_xor_lower s
    rw [← hs] at hx
    cases hl : c.isLower with
    | false =>
      rw [hl] at hx
      exact ⟨⟨true, b', ""⟩, ⟨false, b, "It\x27s Black\x27s turn. Move a black piece.\n"⟩,
        by simp [processMove, h1', hfull, h2, hx, hmv],
        by simp [processMove, h1', hfull, h2, hl], rfl⟩
    | true =>
      rw [hl] at hx
      exact ⟨⟨false, b, "It\x27s White\x27s turn. Move a white piece.\n"⟩, ⟨true, b', ""⟩,
        by simp [processMove, h1', hfull, h2, hx],
        by simp [processMove, h1', hfull, h2, hl, hmv], rfl⟩

theorem occupancy_queries_agree_witness :
    (∃ full c, isSquareFull (Board.init PieceMap.std) 12 = some full ∧
        getPieceAt (Board.init PieceMap.std) 12 = some c ∧
        (full = true ↔ c ≠ '-') ∧
        (full = true → c ∈ "KQRBNPkqrbnp".toList ∧ c.isUpper = !c.isLower)) ∧
    (∃ r1 r2, processMove (Board.init PieceMap.std) "e2" "e4" true = some r1 ∧
        processMove (Board.init PieceMap.std) "e2" "e4" false = some r2 ∧ r1.ok = !r2.ok) :=
  ⟨(occupancy_queries_agree (Board.init PieceMap.std)).1 12 (by decide),
   (occupancy_queries_agree (Board.init PieceMap.std)).2 "e2" "e4" (by decide) (by decide)
     (by decide)⟩

/-! ## Placement and clearing -/

theorem mem_letters_iff (c : Char) : c ∈ "KQRBNPkqrbnp".toList ↔ ∃ s : Slot, c = s.label := by
  constructor
  · intro h
    have h' : c = 'K' ∨ c = 'Q' ∨ c = 'R' ∨ c = 'B' ∨ c = 'N' ∨ c = 'P' ∨
        c = 'k' ∨ c = 'q' ∨ c = 'r' ∨ c = 'b' ∨ c = 'n' ∨ c = 'p' := by
      simpa using h
    rcases h' with e | e | e | e | e | e | e | e | e | e | e | e
    · exact ⟨.wKing, e⟩
    · exact ⟨.wQueen, e⟩
    · exact ⟨.wRook, e⟩
    · exact ⟨.wBishop, e⟩
    · exact ⟨.wKnight, e⟩
    · exact ⟨.wPawn, e⟩
    · exact ⟨.bKing, e⟩
    · exact ⟨.bQueen, e⟩
    · exact ⟨.bRook, e⟩
    · exact ⟨.bBishop, e⟩
    · exact ⟨.bKnight, e⟩
    · exact ⟨.bPawn, e⟩
  · rintro ⟨s, rfl⟩
    exact label_mem_letters s

theorem and_two_pow_eq_zero (m i : Nat) : m &&& 2 ^ i = 0 ↔ m.testBit i = false := by
  have h := and_two_pow_ne_zero m i
  constructor
  · intro e
    cases hb : m.testBit i with
    | false => rfl
    | true => exact absurd e (h.2 hb)
  · intro hb
    by_contra hne
    rw [h.1 hne] at hb
    exact absurd hb (by decide)

theorem testBit_high {m : Nat} (h : m < 2 ^ 64) {j : Nat} (hj : ¬ j < 64) :
    m.testBit j = false := by
  apply Nat.testBit_lt_two_pow
  have : 2 ^ 64 ≤ 2 ^ j := Nat.pow_le_pow_right (by decide) (by omega)
  omega

/-- C13. The placement contract of `setSquare`: for every board, every square `i` in `0..63`
and every character `c`, `setSquare(i, c)` is performed and afterwards, when `c` is one of the
twelve piece characters `KQRBNPkqrbnp`, bit `i` is set in the mask the map holds for `c` and
in no other mask, so `getPieceAt(i)` is `c`; when `c` is any other character bit `i` is set in
no mask, so `getPieceAt(i)` is `'-'`; in both cases each of the other 63 bits of every mask is
unchanged. -/
theorem setSquare_placement (b : Board) (i : Int) (c : Char) (hi : inRange i) :
    ∃ b', setSquare b i c = some b' ∧
      (c ∈ "KQRBNPkqrbnp".toList →
        ∃ s, b'.pieceBitboards.val.lookup c = some s ∧ b'.get s &&& 2 ^ i.toNat ≠ 0 ∧
          (∀ t, t ≠ s → b'.get t &&& 2 ^ i.toNat = 0) ∧ getPieceAt b' i = some c) ∧
      (c ∉ "KQRBNPkqrbnp".toList →
        (∀ t, b'.get t &&& 2 ^ i.toNat = 0) ∧ getPieceAt b' i = some '-') ∧
      (∀ s j, j < 64 → j ≠ i.toNat → (b'.get s).testBit j = (b.get s).testBit j) := by
  obtain ⟨b', hset, _, hbits⟩ := setSquare_spec b hi c
  have hat : ∀ t, (b'.get t).testBit i.toNat = decide (c = t.label) := by
    intro t
    simp [hbits]
  refine ⟨b', hset, ?_, ?_, ?_⟩
  · intro hc
    obtain ⟨s, rfl⟩ := (mem_letters_iff c).1 hc
    refine ⟨s, lookup_label _ s, ?_, ?_, ?_⟩
    · rw [and_two_pow_ne_zero, hat]
      simp
    · intro t ht
      rw [and_two_pow_eq_zero, hat]
      simpa using fun e => ht (label_injective e).symm
    · rw [getPieceAt_eq b' hi]
      congr 1
      apply firstLabel_unique
      · simp [hat]
      · intro t ht
        rw [hat] at ht
        exact (label_injective (by simpa using ht)).symm
  · intro hc
    have hn : ∀ t : Slot, c ≠ t.label := fun t e => hc ((mem_letters_iff c).2 ⟨t, e⟩)
    have hz : ∀ t, (b'.get t).testBit i.toNat = false := by
      intro t
      rw [hat]
      simpa using hn t
    refine ⟨fun t => (and_two_pow_eq_zero _ _).2 (hz t), ?_⟩
    rw [getPieceAt_eq b' hi]
    congr 1
    rw [firstLabel_eq_dash]
    exact hz
  · intro s j hj hne
    simp [hbits, hj, Ne.symm hne]

theorem setSquare_placement_witness :
    ∃ b', setSquare (Board.init PieceMap.std) 28 'q' = some b' ∧
      ('q' ∈ "KQRBNPkqrbnp".toList →
        ∃ s, b'.pieceBitboards.val.lookup 'q' = some s ∧
          b'.get s &&& 2 ^ (28 : Int).toNat ≠ 0 ∧
          (∀ t, t ≠ s → b'.get t &&& 2 ^ (28 : Int).toNat = 0) ∧
          getPieceAt b' 28 = some 'q') ∧
      ('q' ∉ "KQRBNPkqrbnp".toList →
        (∀ t, b'.get t &&& 2 ^ (28 : Int).toNat = 0) ∧ getPieceAt b' 28 = some '-') ∧
      (∀ s j, j < 64 → j ≠ (28 : Int).toNat →
        (b'.get s).testBit j = ((Board.init PieceMap.std).get s).testBit j) :=
  setSquare_placement (Board.init PieceMap.std) 28 'q' (by decide)

/-- C14. `clearSquare` is idempotent and a no-op on empty squares: for every board (masks
being 64-bit values) and every square `i` in `0..63`, `clearSquare(i)` is performed, applying
it again to the result gives the same board, if `isSquareFull(i)` is false the board it gives
is the board it was given, and afterwards bit `i` is clear in all twelve masks while every
other bit of every mask is unchanged. -/
theorem clearSquare_idempotent (b : Board) (i : Int) (hu : b.U64) (hi : inRange i) :
    ∃ b1, clearSquare b i = some b1 ∧ clearSquare b1 i = some b1 ∧
      (isSquareFull b i = some false → b1 = b) ∧
      (∀ s, b1.get s &&& 2 ^ i.toNat = 0) ∧
      (∀ s j, j ≠ i.toNat → (b1.get s).testBit j = (b.get s).testBit j) := by
  obtain ⟨b1, h1, hm1, hb1⟩ := clearSquare_spec b hi
  obtain ⟨b2, h2, hm2, hb2⟩ := clearSquare_spec b1 hi
  have e21 : b2 = b1 := by
    apply board_ext hm2
    intro s
    apply Nat.eq_of_testBit_eq
    intro j
    rw [hb2, hb1]
    cases (b.get s).testBit j <;> cases decide (j < 64) <;> cases decide (i.toNat = j) <;> rfl
  have hother : ∀ s j, j ≠ i.toNat → (b1.get s).testBit j = (b.get s).testBit j := by
    intro s j hne
    rw [hb1]
    by_cases hj : j < 64
    · simp [hj, Ne.symm hne]
    · simp [hj, testBit_high (hu s) hj]
  refine ⟨b1, h1, by rw [← e21] at h2 ⊢; exact h2, ?_, ?_, hother⟩
  · intro hemp
    have hz := (empty_iff b hi).1 hemp
    apply board_ext hm1
    intro s
    apply Nat.eq_of_testBit_eq
    intro j
    by_cases hj : j = i.toNat
    · rw [hj, hz s, hb1]
      simp
    · exact hother s j hj
  · intro s
    rw [and_two_pow_eq_zero, hb1]
    simp

theorem clearSquare_idempotent_witness :
    clearSquare (Board.init PieceMap.std) 28 = some (Board.init PieceMap.std) ∧
      ∀ s, (Board.init PieceMap.std).get s &&& 2 ^ (28 : Int).toNat = 0 := by
  obtain ⟨b1, h1, _, h3, h4, _⟩ :=
    clearSquare_idempotent (Board.init PieceMap.std) 28 (by decide) (by decide)
  have e : b1 = Board.init PieceMap.std := h3 (by decide)
  rw [e] at h1 h4
  exact ⟨h1, h4⟩

/-! ## Moves onto the same square, and the two-move scenario -/

/-- C19. A move from a square onto itself is accepted and changes nothing: on a board with
pairwise disjoint masks (each a 64-bit value) `movePiece(a, a)` is performed for every square
`a` in `0..63` and leaves the board, all twelve masks, as it was; so for every valid notation
`s` whose square holds a piece of the side to move, `processMove(s, s, turn)` returns true,
writes nothing, and leaves the board unchanged. -/
theorem self_move_changes_nothing (b : Board) (hd : b.Disjoint) (hu : b.U64) :
    (∀ a : Int, inRange a → movePiece b a a = some b) ∧
    (∀ (s : String) (w : Bool) (c : Char), notationToIndex s ≠ -1 →
      isSquareFull b (notationToIndex s) = some true →
      getPieceAt b (notationToIndex s) = some c →
      (if w = true then c.isUpper = true else c.isLower = true) →
      processMove b s s w = some ⟨true, b, ""⟩) := by
  have hself : ∀ a : Int, inRange a → movePiece b a a = some b := by
    intro a ha
    obtain ⟨full, c, hfull, hc, hiff, _⟩ := queries_agree b ha
    cases full with
    | false =>
      have hdash : c = '-' := by
        by_contra hne
        exact absurd (hiff.2 hne) (by decide)
      simp [movePiece, hc, hdash]
    | true =>
      obtain ⟨b', hmv, hm, hbits, _⟩ := movePiece_effect b ha ha hfull hc
      rw [hmv]
      congr 1
      apply board_ext hm
      intro s
      apply Nat.eq_of_testBit_eq
      intro j
      rw [hbits]
      rw [getPieceAt_eq b ha, Option.some.injEq] at hc
      have hne := (occupied_iff b ha).1 hfull
      obtain ⟨s0, hs0, hl0⟩ := firstLabel_sound b.pieceBitboards _ hne
      rw [hc] at hl0
      by_cases hj : j < 64
      · by_cases hja : a.toNat = j
        · subst hja
          by_cases hs : s = s0
          · subst hs
            simp [hl0, hs0]
          · have hlab : c ≠ s.label := by
              rw [hl0]
              exact fun e => hs (label_injective e).symm
            have hbit : (b.get s).testBit a.toNat = false := by
              cases hb : (b.get s).testBit a.toNat with
              | false => rfl
              | true => exact absurd (disjoint_bits_unique hd _ s s0 hb hs0) hs
            simp [hlab, hbit]
        · simp [hj, hja]
      · have hja : a.toNat ≠ j := by
          have := toNat_lt ha
          omega
        simp [hj, hja, testBit_high (hu s) hj]
  refine ⟨hself, ?_⟩
  intro s w c hs hfull hc hside
  have rs : inRange (notationToIndex s) := (notationToIndex_range s).resolve_left hs
  cases w with
  | true =>
    have hu' : c.isUpper = true := by simpa using hside
    simp [processMove, hs, hfull, hc, hu', hself _ rs]
  | false =>
    have hl' : c.isLower = true := by simpa using hside
    simp [processMove, hs, hfull, hc, hl', hself _ rs]

theorem self_move_changes_nothing_witness :
    movePiece (Board.init PieceMap.std) 12 12 = some (Board.init PieceMap.std) ∧
    processMove (Board.init PieceMap.std) "e2" "e2" true =
      some ⟨true, Board.init PieceMap.std, ""⟩ :=
  ⟨(self_move_changes_nothing (Board.init PieceMap.std) (init_disjoint _) (by decide)).1 12
      (by decide),
   (self_move_changes_nothing (Board.init PieceMap.std) (init_disjoint _) (by decide)).2
      "e2" true 'P' (by decide) (by decide) (by decide) (by decide)⟩

/-- C11. End-to-end scenario, in every iteration order of the map: starting from the board
built by the constructor, `processMove("e2", "e4", true)` followed by
`processMove("e7", "e5", false)` both return true, and afterwards `getPieceAt(28)` is `'P'`
(e4), `getPieceAt(12)` is `'-'` (e2), `getPieceAt(36)` is `'p'` (e5), `getPieceAt(52)` is
`'-'` (e7), and `getPieceAt` of each of the other 60 squares is what it is on the initial
board. -/
theorem two_move_scenario (m : PieceMap) :
    ∃ r1 r2, processMove (Board.init m) "e2" "e4" true = some r1 ∧ r1.ok = true ∧
      processMove r1.board "e7" "e5" false = some r2 ∧ r2.ok = true ∧
      getPieceAt r2.board 28 = some 'P' ∧ getPieceAt r2.board 12 = some '-' ∧
      getPieceAt r2.board 36 = some 'p' ∧ getPieceAt r2.board 52 = some '-' ∧
      ∀ x : Int, inRange x → x ≠ 12 → x ≠ 28 → x ≠ 36 → x ≠ 52 →
        getPieceAt r2.board x = getPieceAt (Board.init m) x := by
  have e7 : notationToIndex "e7" = 52 := by decide
  have e5 : notationToIndex "e5" = 36 := by decide
  have e2 : notationToIndex "e2" = 12 := by decide
  have e4 : notationToIndex "e4" = 28 := by decide
  have r52 : inRange 52 := by decide
  have r12 : inRange 12 := by decide
  have r28 : inRange 28 := by decide
  have r36 : inRange 36 := by decide
  have b52 : ((Board.init m).get .bPawn).testBit (52 : Int).toNat = true := by
    simp [Board.init, Board.get]
    rfl
  have b12 : ((Board.init m).get .wPawn).testBit (12 : Int).toNat = true := by
    simp [Board.init, Board.get]
    rfl
  obtain ⟨f52, p52⟩ := queries_of_bit (init_disjoint m) r52 b52
  obtain ⟨f12, p12⟩ := queries_of_bit (init_disjoint m) r12 b12
  obtain ⟨b1, hmv1, _, _, g28, g12, gx1⟩ := movePiece_effect (Board.init m) r12 r28 f12 p12
  have q52 : getPieceAt b1 52 = some 'p' := by
    rw [gx1 52 r52 (by decide) (by decide)]
    exact p52
  have o52 : isSquareFull b1 52 = some true := by
    obtain ⟨full, c, hfull, hc, hiff, _⟩ := queries_agree b1 r52
    rw [q52, Option.some.injEq] at hc
    rw [hfull, hiff.2 (by rw [← hc]; decide)]
  obtain ⟨b2, hmv2, _, _, g36, g52, gx2⟩ := movePiece_effect b1 r52 r36 o52 q52
  refine ⟨⟨true, b1, ""⟩, ⟨true, b2, ""⟩, ?_, rfl, ?_, rfl, ?_, ?_, g36, g52 (by decide), ?_⟩
  · simp [processMove, e2, e4, f12, p12, Slot.label, hmv1]
  · simp [processMove, e7, e5, o52, q52, hmv2]
  · rw [gx2 28 r28 (by decide) (by decide)]
    exact g28
  · rw [gx2 12 r12 (by decide) (by decide)]
    exact g12 (by decide)
  · intro x hx h12 h28 h36 h52
    rw [gx2 x hx h52 h36, gx1 x hx h12 h28]

/-! ## The game loop -/

theorem uniqueSpacesFrom_eq (a : Char) (rest : List Char) :
    a :: uniqueSpacesFrom a rest = collapseSpaceRuns (a :: rest) := by
  induction rest generalizing a with
  | nil => rfl
  | cons y r ih =>
    by_cases h : a = ' ' ∧ y = ' '
    · have hay : a = y := h.1.trans h.2.symm
      simp only [uniqueSpacesFrom, collapseSpaceRuns, if_pos h]
      rw [ih a, hay]
    · simp only [uniqueSpacesFrom, collapseSpaceRuns, if_neg h]
      rw [ih y]

theorem uniqueSpaces_eq (l : List Char) : uniqueSpaces l = collapseSpaceRuns l := by
  cases l with
  | nil => rfl
  | cons a rest => exact uniqueSpacesFrom_eq a rest

theorem findSpace_some {l : List Char} {p : Nat} (h : findSpace l = some p) :
    l[p]? = some ' ' ∧ ∀ q, q < p → l[q]? ≠ some ' ' := by
  induction l generalizing p with
  | nil => simp [findSpace] at h
  | cons x xs ih =>
    by_cases hx : x = ' '
    · simp only [findSpace, if_pos hx, Option.some.injEq] at h
      subst h
      exact ⟨by simp [hx], fun q hq => absurd hq (Nat.not_lt_zero q)⟩
    · simp only [findSpace, if_neg hx, Option.map_eq_some'] at h
      obtain ⟨p', hp', rfl⟩ := h
      obtain ⟨h1, h2⟩ := ih hp'
      refine ⟨by simpa using h1, ?_⟩
      intro q hq
      cases q with
      | zero => simpa using hx
      | succ q' =>
        have := h2 q' (by omega)
        simpa using this

theorem findSpace_of_first {l : List Char} {p : Nat} (h1 : l[p]? = some ' ')
    (h2 : ∀ q, q < p → l[q]? ≠ some ' ') : findSpace l = some p := by
  induction l generalizing p with
  | nil => simp at h1
  | cons x xs ih =>
    cases p with
    | zero =>
      have hx : x = ' ' := by simpa using h1
      simp [findSpace, hx]
    | succ p' =>
      have hx : x ≠ ' ' := by
        have := h2 0 (by omega)
        simpa using this
      have h1' : xs[p']? = some ' ' := by simpa using h1
      have h2' : ∀ q, q < p' → xs[q]? ≠ some ' ' := by
        intro q hq
        have := h2 (q + 1) (by omega)
        simpa using this
      simp [findSpace, hx, ih h1' h2']

/-- `processMove` returns for every input, and a false return leaves the board as it was. -/
theorem processMove_returns (b : Board) (f t : String) (w : Bool) :
    ∃ r, processMove b f t w = some r ∧ (r.ok = false → r.board = b) := by
  rcases processMove_cases b f t w with ⟨_, hr⟩ | ⟨_, _, _, hr⟩ |
    ⟨c, _, _, _, _, _, _, hr⟩ | ⟨c, _, _, _, _, _, _, hr⟩ | ⟨c, b', _, _, _, _, _, _, hr⟩
  · exact ⟨_, hr, fun _ => rfl⟩
  · exact ⟨_, hr, fun _ => rfl⟩
  · exact ⟨_, hr, fun _ => rfl⟩
  · exact ⟨_, hr, fun _ => rfl⟩
  · exact ⟨_, hr, fun h => absurd h (by simp)⟩

/-- C16. One step of the game loop changes the turn exactly when a move is applied. For every
board, turn flag and input line, the space-removal statement of the loop collapses each run
of consecutive spaces to one space, the step returns, and with `l` the collapsed line the
turn flag is negated if and only if the first space of `l` is at a position `p` with
`0 < p < length - 1` and `processMove(l[0..p), l(p..end), turn)` returns true; the board
afterwards is the one that call of `processMove` leaves. In every other case (no space,
leading space, nothing after the space, or `processMove` returning false) the turn flag and
the board are both unchanged. -/
theorem turn_changes_iff_move_applied (g : Game) (line : String) :
    uniqueSpaces line.toList = collapseSpaceRuns line.toList ∧
    ∃ g' out, Game.startStep g line = some (g', out) ∧
      (g'.isWhitePlaying = (!g.isWhitePlaying) ↔
        ∃ p r, (uniqueSpaces line.toList)[p]? = some ' ' ∧
          (∀ q, q < p → (uniqueSpaces line.toList)[q]? ≠ some ' ') ∧
          0 < p ∧ p < (uniqueSpaces line.toList).length - 1 ∧
          processMove g.m_Board (String.mk ((uniqueSpaces line.toList).take p))
            (String.mk ((uniqueSpaces line.toList).drop (p + 1))) g.isWhitePlaying = some r ∧
          r.ok = true) ∧
      (∀ p r, (uniqueSpaces line.toList)[p]? = some ' ' →
          (∀ q, q < p → (uniqueSpaces line.toList)[q]? ≠ some ' ') →
          0 < p → p < (uniqueSpaces line.toList).length - 1 →
          processMove g.m_Board (String.mk ((uniqueSpaces line.toList).take p))
            (String.mk ((uniqueSpaces line.toList).drop (p + 1))) g.isWhitePlaying = some r →
          g'.m_Board = r.board) ∧
      (g'.isWhitePlaying ≠ (!g.isWhitePlaying) → g' = g) := by
  refine ⟨uniqueSpaces_eq _, ?_⟩
  obtain ⟨b, w⟩ := g
  unfold Game.startStep
  simp only
  generalize uniqueSpaces line.toList = l
  have hww : w ≠ !w := by cases w <;> decide
  have hfirst : ∀ {p p0 : Nat}, findSpace l = some p0 → l[p]? = some ' ' →
      (∀ q, q < p → l[q]? ≠ some ' ') → p = p0 := by
    intro p p0 hfs h1 h2
    have := findSpace_of_first h1 h2
    rw [hfs] at this
    exact (Option.some.inj this).symm
  cases hfs : findSpace l with
  | none =>
    refine ⟨⟨b, w⟩, _, rfl, ⟨fun h => absurd h hww, ?_⟩, ?_, fun _ => rfl⟩
    · rintro ⟨p, r, h1, h2, -⟩
      rw [findSpace_of_first h1 h2] at hfs
      exact absurd hfs (by simp)
    · intro p r h1 h2
      rw [findSpace_of_first h1 h2] at hfs
      exact absurd hfs (by simp)
  | some p0 =>
    by_cases hc : p0 > 0 ∧ p0 < l.length - 1
    · obtain ⟨r, hr, hfail⟩ := processMove_returns b (String.mk (l.take p0))
        (String.mk (l.drop (p0 + 1))) w
      have hboard : ∀ p r', l[p]? = some ' ' → (∀ q, q < p → l[q]? ≠ some ' ') →
          0 < p → p < l.length - 1 →
          processMove b (String.mk (l.take p)) (String.mk (l.drop (p + 1))) w = some r' →
          r' = r := by
        intro p r' h1 h2 _ _ hr'
        have hp := hfirst hfs h1 h2
        subst hp
        rw [hr, Option.some.injEq] at hr'
        exact hr'.symm
      cases hok : r.ok with
      | true =>
        refine ⟨⟨r.board, !w⟩, r.out, by simp [hc, hr, hok],
          ⟨fun _ => ⟨p0, r, (findSpace_some hfs).1, (findSpace_some hfs).2, hc.1, hc.2, hr,
            hok⟩, fun _ => rfl⟩, ?_, fun h => absurd rfl h⟩
        intro p r' h1 h2 h3 h4 h5
        rw [hboard p r' h1 h2 h3 h4 h5]
      | false =>
        have hb : r.board = b := hfail hok
        refine ⟨⟨b, w⟩, r.out, by simp [hc, hr, hok, hb],
          ⟨fun h => absurd h hww, ?_⟩, ?_, fun _ => rfl⟩
        · rintro ⟨p, r', h1, h2, h3, h4, h5, hok'⟩
          rw [hboard p r' h1 h2 h3 h4 h5, hok] at hok'
          exact absurd hok' (by decide)
        · intro p r' h1 h2 h3 h4 h5
          rw [hboard p r' h1 h2 h3 h4 h5, hb]
    · refine ⟨⟨b, w⟩, _, if_neg hc, ⟨fun h => absurd h hww, ?_⟩, ?_, fun _ => rfl⟩
      · rintro ⟨p, r, h1, h2, hp1, hp2, -⟩
        have hp := hfirst hfs h1 h2
        subst hp
        exact absurd ⟨hp1, hp2⟩ hc
      · intro p r h1 h2 hp1 hp2
        have hp := hfirst hfs h1 h2
        subst hp
        exact absurd ⟨hp1, hp2⟩ hc

theorem turn_changes_iff_move_applied_witness :
    ∃ g' out, Game.startStep ⟨Board.init PieceMap.std, true⟩ "e2   e4" = some (g', out) ∧
      g'.isWhitePlaying = false := by
  obtain ⟨-, g', out, h1, h2, -⟩ :=
    turn_changes_iff_move_applied ⟨Board.init PieceMap.std, true⟩ "e2   e4"
  exact ⟨g', out, h1, h2.2 ⟨2,
    ⟨true, { Board.init PieceMap.std with wPawn := 268496640 }, ""⟩,
    by decide, by decide, by decide, by decide, by decide, rfl⟩⟩

/-! ## Shifts stay in range -/

theorem pos_eq_none_iff (square : Int) : pos square = none ↔ ¬ inRange square := by
  unfold pos inRange
  by_cases h : 0 ≤ square ∧ square < 64
  · rw [if_pos h]
    constructor
    · intro e
      exact absurd e (by simp)
    · intro hn
      exact absurd ⟨h.1, by omega⟩ hn
  · rw [if_neg h]
    constructor
    · intro _ hr
      exact h ⟨hr.1, by omega⟩
    · intro _
      rfl

theorem map_ne_nil (m : PieceMap) : ∃ it rest, m.val = it :: rest := by
  have hlen : m.val.length = 12 := by
    rw [m.property.length_eq]
    rfl
  match hm : m.val, hlen with
  | it :: rest, _ => exact ⟨it, rest, rfl⟩

/-- An index outside `0..63` makes each of the four functions that call `pos` undefined. -/
theorem undefined_out_of_range (b : Board) {square : Int} (h : ¬ inRange square) :
    isSquareFull b square = none ∧ getPieceAt b square = none ∧
      clearSquare b square = none ∧ ∀ c, setSquare b square c = none := by
  have hp : pos square = none := (pos_eq_none_iff square).2 h
  have hclear : clearSquare b square = none := by simp [clearSquare, hp]
  refine ⟨by simp [isSquareFull, hp], ?_, hclear, fun c => by simp [setSquare, hclear]⟩
  obtain ⟨it, rest, e⟩ := map_ne_nil b.pieceBitboards
  simp [getPieceAt, e, getPieceAtLoop, hp]

/-- C17. No out-of-range shift is reachable through `processMove`. `pos(square)` is undefined
exactly when `square` is outside `0..63`, and such an index makes `isSquareFull`,
`getPieceAt`, `clearSquare` and `setSquare` undefined; `notationToIndex` returns `-1` or a
value in `0..63` for every string; and for every board, pair of strings and turn flag
`processMove` is defined, so every `pos(square)` evaluated on its way has
`0 <= square <= 63`. -/
theorem no_out_of_range_shift :
    (∀ square : Int, pos square = none ↔ ¬ inRange square) ∧
    (∀ (b : Board) (square : Int), ¬ inRange square →
      isSquareFull b square = none ∧ getPieceAt b square = none ∧
        clearSquare b square = none ∧ ∀ c, setSquare b square c = none) ∧
    (∀ s : String, notationToIndex s = -1 ∨ inRange (notationToIndex s)) ∧
    (∀ (b : Board) (f t : String) (w : Bool), ∃ r, processMove b f t w = some r) :=
  ⟨pos_eq_none_iff, fun b _ h => undefined_out_of_range b h, notationToIndex_range,
    fun b f t w => (processMove_returns b f t w).imp fun _ h => h.1⟩

theorem no_out_of_range_shift_witness :
    (isSquareFull (Board.init PieceMap.std) 64 = none ∧
      getPieceAt (Board.init PieceMap.std) 64 = none ∧
      clearSquare (Board.init PieceMap.std) 64 = none ∧
      ∀ c, setSquare (Board.init PieceMap.std) 64 c = none) ∧
    (∃ r, processMove (Board.init PieceMap.std) "h8" "i9" true = some r) :=
  ⟨no_out_of_range_shift.2.1 (Board.init PieceMap.std) 64 (by decide),
   no_out_of_range_shift.2.2.2 (Board.init PieceMap.std) "h8" "i9" true⟩

/-! ## Counting set bits -/

theorem list_sum_range (f : Nat → Nat) (n : Nat) :
    ((List.range n).map f).sum = ∑ j in Finset.range n, f j := by
  induction n with
  | zero => rfl
  | succ n ih =>
    rw [List.range_succ, List.map_append, List.sum_append, ih, Finset.sum_range_succ]
    simp

theorem popcount_eq (m : Nat) : popcount m = ∑ j in Finset.range 64, (m.testBit j).toNat :=
  list_sum_range _ 64

/-- Clearing bit `t` lowers the count by one if the bit was set. -/
theorem sum_bits_clear (f g : Nat → Bool) {t : Nat} (ht : t < 64)
    (hg : ∀ j, j < 64 → g j = (f j && !decide (t = j))) :
    (∑ j in Finset.range 64, (g j).toNat) + (f t).toNat =
      ∑ j in Finset.range 64, (f j).toNat := by
  have hm : t ∈ Finset.range 64 := Finset.mem_range.2 ht
  rw [← Finset.add_sum_erase _ _ hm, ← Finset.add_sum_erase _ (fun j => (f j).toNat) hm]
  have hgt : g t = false := by simp [hg t ht]
  have hrest : ∑ j in (Finset.range 64).erase t, (g j).toNat =
      ∑ j in (Finset.range 64).erase t, (f j).toNat := by
    apply Finset.sum_congr rfl
    intro j hj
    have hj1 : j ≠ t := (Finset.mem_erase.1 hj).1
    have hj2 : j < 64 := Finset.mem_range.1 (Finset.mem_erase.1 hj).2
    simp [hg j hj2, Ne.symm hj1]
  rw [hrest, hgt]
  simp only [Bool.toNat_false]
  omega

/-- Setting a clear bit `t` raises the count by one. -/
theorem sum_bits_set (f g : Nat → Bool) {t : Nat} (ht : t < 64) (hf : f t = false)
    (hg : ∀ j, j < 64 → g j = (f j || decide (t = j))) :
    ∑ j in Finset.range 64, (g j).toNat = (∑ j in Finset.range 64, (f j).toNat) + 1 := by
  have hm : t ∈ Finset.range 64 := Finset.mem_range.2 ht
  rw [← Finset.add_sum_erase _ _ hm, ← Finset.add_sum_erase _ (fun j => (f j).toNat) hm]
  have hgt : g t = true := by simp [hg t ht]
  have hrest : ∑ j in (Finset.range 64).erase t, (g j).toNat =
      ∑ j in (Finset.range 64).erase t, (f j).toNat := by
    apply Finset.sum_congr rfl
    intro j hj
    have hj1 : j ≠ t := (Finset.mem_erase.1 hj).1
    have hj2 : j < 64 := Finset.mem_range.1 (Finset.mem_erase.1 hj).2
    simp [hg j hj2, Ne.symm hj1]
  rw [hrest, hgt, hf]
  simp only [Bool.toNat_false, Bool.toNat_true]
  omega

/-- The mask a piece moves within: bit `a` is set before; bits `a` and `t` are cleared and
bit `t` is set. The count drops by one exactly when `t` is another bit that was set. -/
theorem sum_bits_move (f g : Nat → Bool) {a t : Nat} (ha : a < 64) (ht : t < 64)
    (hfa : f a = true)
    (hg : ∀ j, j < 64 → g j = ((f j && !decide (a = j) && !decide (t = j)) || decide (t = j))) :
    (∑ j in Finset.range 64, (g j).toNat) + (if a ≠ t ∧ f t = true then 1 else 0) =
      ∑ j in Finset.range 64, (f j).toNat := by
  have h1 := sum_bits_clear f (fun j => f j && !decide (a = j)) ha (fun _ _ => rfl)
  have h2 := sum_bits_clear (fun j => f j && !decide (a = j))
    (fun j => f j && !decide (a = j) && !decide (t = j)) ht (fun _ _ => rfl)
  have h3 := sum_bits_set (fun j => f j && !decide (a = j) && !decide (t = j)) g ht
    (by simp) hg
  simp only [hfa, Bool.toNat_true] at h1
  dsimp only at h1 h2 h3
  by_cases hc : a ≠ t ∧ f t = true
  · have e : (f t && !decide (a = t)).toNat = 1 := by simp [hc.1, hc.2]
    rw [if_pos hc]
    rw [e] at h2
    omega
  · have e : (f t && !decide (a = t)).toNat = 0 := by
      by_cases hat : a = t
      · simp [hat]
      · have hft : f t = false := by
          cases h : f t with
          | false => rfl
          | true => exact absurd ⟨hat, h⟩ hc
        simp [hft]
    rw [if_neg hc]
    rw [e] at h2
    omega

theorem getPieceAt_label_iff {b : Board} (hd : b.Disjoint) {i : Int} (hi : inRange i)
    (s : Slot) : getPieceAt b i = some s.label ↔ (b.get s).testBit i.toNat = true := by
  constructor
  · intro h
    rw [getPieceAt_eq b hi, Option.some.injEq] at h
    have hne : firstLabel (fun s => (b.get s).testBit i.toNat) b.pieceBitboards.val ≠ '-' := by
      rw [h]
      exact label_ne_dash s
    obtain ⟨u, hu, hl⟩ := firstLabel_sound b.pieceBitboards _ hne
    rw [h] at hl
    rw [label_injective hl]
    exact hu
  · intro h
    exact (queries_of_bit hd hi h).2

theorem isSquareFull_iff_union (b : Board) {i : Int} (hi : inRange i) :
    isSquareFull b i = some true ↔ (getAllFullSquares b).testBit i.toNat = true := by
  rw [isSquareFull_eq b hi, testBit_getAllFullSquares]
  simp

theorem testBit_union_eq (b : Board) (j : Nat) :
    (getAllFullSquares b).testBit j = decide (∃ s, (b.get s).testBit j = true) := by
  cases h : (getAllFullSquares b).testBit j with
  | true =>
    have := (testBit_getAllFullSquares b j).1 h
    simp [this]
  | false =>
    have hn : ¬ ∃ s, (b.get s).testBit j = true := fun he => by
      rw [(testBit_getAllFullSquares b j).2 he] at h
      exact absurd h (by decide)
    simp [hn]

/-- C20. `movePiece` never creates pieces: on a board with pairwise disjoint masks and for
squares `a` and `t` in `0..63`, `movePiece(a, t)` is performed; the number of set bits of
`getAllFullSquares()` afterwards is the number before minus one when `a` and `t` are distinct
and both occupied, and the number before in every other case; and the number of set bits of
every label's mask is unchanged, except that the mask of the label captured at `t` (the one
`getPieceAt(t)` named before, when `a` and `t` are distinct and `a` is occupied) loses
one. -/
theorem movePiece_never_creates (b : Board) (a t : Int) (hd : b.Disjoint)
    (ha : inRange a) (ht : inRange t) :
    ∃ b', movePiece b a t = some b' ∧
      popcount (getAllFullSquares b') +
          (if a ≠ t ∧ isSquareFull b a = some true ∧ isSquareFull b t = some true
            then 1 else 0) =
        popcount (getAllFullSquares b) ∧
      ∀ s, popcount (b'.get s) +
          (if a ≠ t ∧ isSquareFull b a = some true ∧ getPieceAt b t = some s.label
            then 1 else 0) =
        popcount (b.get s) := by
  obtain ⟨full, c, hfull, hc, hiff, hlab⟩ := queries_agree b ha
  cases full with
  | false =>
    have hdash : c = '-' := by
      by_contra hne
      exact absurd (hiff.2 hne) (by decide)
    refine ⟨b, by simp [movePiece, hc, hdash], ?_, ?_⟩
    · simp [hfull]
    · intro s
      simp [hfull]
  | true =>
    obtain ⟨s0, hcs0, hs0⟩ := hlab rfl
    obtain ⟨b', hmv, _, hbits, _⟩ := movePiece_effect b ha ht hfull hc
    have hna : a.toNat < 64 := toNat_lt ha
    have hnt : t.toNat < 64 := toNat_lt ht
    have hat : a ≠ t ↔ a.toNat ≠ t.toNat :=
      ⟨fun h e => h (toNat_inj ha ht e), fun h e => h (by rw [e])⟩
    refine ⟨b', hmv, ?_, ?_⟩
    · rw [popcount_eq, popcount_eq]
      have hfa : (getAllFullSquares b).testBit a.toNat = true :=
        (isSquareFull_iff_union b ha).1 hfull
      have hg : ∀ j, j < 64 → (getAllFullSquares b').testBit j =
          (((getAllFullSquares b).testBit j && !decide (a.toNat = j) && !decide (t.toNat = j))
            || decide (t.toNat = j)) := by
        intro j hj
        rw [testBit_union_eq, testBit_union_eq]
        by_cases hjt : t.toNat = j
        · have : ∃ s, (b'.get s).testBit j = true := ⟨s0, by simp [hbits, hcs0, hjt]⟩
          simp [hjt, this]
        · by_cases hja : a.toNat = j
          · simp [hbits, hjt, hja]
          · simp [hbits, hjt, hja, hj]
      have key := sum_bits_move _ _ hna hnt hfa hg
      rw [← key]
      congr 1
      by_cases hcond : a ≠ t ∧ isSquareFull b a = some true ∧ isSquareFull b t = some true
      · rw [if_pos hcond, if_pos ⟨hat.1 hcond.1, (isSquareFull_iff_union b ht).1 hcond.2.2⟩]
      · rw [if_neg hcond, if_neg]
        rintro ⟨h1, h2⟩
        exact hcond ⟨hat.2 h1, hfull, (isSquareFull_iff_union b ht).2 h2⟩
    · intro s
      rw [popcount_eq, popcount_eq]
      by_cases hs : s = s0
      · subst hs
        have hg : ∀ j, j < 64 → (b'.get s).testBit j =
            (((b.get s).testBit j && !decide (a.toNat = j) && !decide (t.toNat = j))
              || decide (t.toNat = j)) := by
          intro j hj
          simp [hbits, hcs0, hj]
        have key := sum_bits_move _ _ hna hnt hs0 hg
        rw [← key]
        congr 1
        by_cases hcond : a ≠ t ∧ isSquareFull b a = some true ∧ getPieceAt b t = some s.label
        · rw [if_pos hcond,
            if_pos ⟨hat.1 hcond.1, (getPieceAt_label_iff hd ht s).1 hcond.2.2⟩]
        · rw [if_neg hcond, if_neg]
          rintro ⟨h1, h2⟩
          exact hcond ⟨hat.2 h1, hfull, (getPieceAt_label_iff hd ht s).2 h2⟩
      · have hcl : c ≠ s.label := by
          rw [hcs0]
          exact fun e => hs (label_injective e).symm
        have hsa : (b.get s).testBit a.toNat = false := by
          cases hb : (b.get s).testBit a.toNat with
          | false => rfl
          | true => exact absurd (disjoint_bits_unique hd _ s s0 hb hs0) hs
        have hg : ∀ j, j < 64 → (b'.get s).testBit j =
            ((b.get s).testBit j && !decide (t.toNat = j)) := by
          intro j hj
          by_cases hja : a.toNat = j
          · subst hja
            simp [hbits, hcl, hsa]
          · simp [hbits, hcl, hj, hja]
        have key := sum_bits_clear _ _ hnt hg
        rw [← key]
        congr 1
        by_cases hcond : a ≠ t ∧ isSquareFull b a = some true ∧ getPieceAt b t = some s.label
        · rw [if_pos hcond, (getPieceAt_label_iff hd ht s).1 hcond.2.2]
          rfl
        · have hst : (b.get s).testBit t.toNat = false := by
            cases hb : (b.get s).testBit t.toNat with
            | false => rfl
            | true =>
              refine absurd ⟨?_, hfull, (getPieceAt_label_iff hd ht s).2 hb⟩ hcond
              intro e
              rw [e, hb] at hsa
              exact absurd hsa (by decide)
          rw [if_neg hcond, hst]
          rfl

theorem movePiece_never_creates_witness :
    ∃ b', movePiece (Board.init PieceMap.std) 12 52 = some b' ∧
      popcount (getAllFullSquares b') +
          (if (12 : Int) ≠ 52 ∧ isSquareFull (Board.init PieceMap.std) 12 = some true ∧
              isSquareFull (Board.init PieceMap.std) 52 = some true then 1 else 0) =
        popcount (getAllFullSquares (Board.init PieceMap.std)) ∧
      ∀ s, popcount (b'.get s) +
          (if (12 : Int) ≠ 52 ∧ isSquareFull (Board.init PieceMap.std) 12 = some true ∧
              getPieceAt (Board.init PieceMap.std) 52 = some s.label then 1 else 0) =
        popcount ((Board.init PieceMap.std).get s) :=
  movePiece_never_creates (Board.init PieceMap.std) 12 52 (init_disjoint _) (by decide)
    (by decide)

end Chess
